import Mathlib

/-!
# TalksCLI (`cmd/root.go`): the list and submit handlers
-/

/-- A Go `string`: an immutable sequence of bytes.  `==` is byte-wise equality and `<` is the
lexicographic order on bytes, which is the order of `List Nat`. -/
abbrev GoString := List Nat

/-- The bytes of a string literal of the source; the literals are ASCII, so the bytes are the
code points. -/
def lit (s : String) : GoString := s.toList.map Char.toNat

/-- The Talk Data Structure (`type Talk struct`).  The field `Type` is `Typ` here, `Type` being
a keyword of Lean. -/
structure Talk where
  ID : Int
  Name : GoString
  Typ : GoString
  Desc : GoString
  Hidden : Bool
deriving DecidableEq

/-- The zero value of `Talk`. -/
def Talk.zero : Talk := ⟨0, [], [], [], false⟩

/-- TalkArr an array of talks (`type TalkArr []Talk`). -/
abbrev TalkArr := List Talk

/-- Len of `sort.Interface`: `return len(a)`. -/
def TalkArr.Len (a : TalkArr) : Nat := a.length

/-- Swap of `sort.Interface`: `a[i], a[j] = a[j], a[i]`.  `none` is the run-time panic of an
index out of range. -/
def TalkArr.Swap (a : TalkArr) (i j : Nat) : Option TalkArr :=
  match a[i]?, a[j]? with
  | some x, some y => some ((a.set i y).set j x)
  | _, _ => none

/-- Less of `sort.Interface`: `return a[i].Type < a[j].Type`.  `none` is the run-time panic of
an index out of range. -/
def TalkArr.Less (a : TalkArr) (i j : Nat) : Option Bool :=
  match a[i]?, a[j]? with
  | some x, some y => some (decide (x.Typ < y.Typ))
  | _, _ => none

/-- The loop of `filterTalksByType`: `for _, t := range tArr` appending to `ret`. -/
def filterTalksByType_loop (ty : GoString) : TalkArr → TalkArr → TalkArr
  | [], ret => ret
  | t :: rest, ret =>
    if t.Typ = ty then filterTalksByType_loop ty rest (ret ++ [t])
    else filterTalksByType_loop ty rest ret

/-- Go `filterTalksByType`: `ret` starts as the nil slice and receives every talk of type `ty`. -/
def filterTalksByType (tArr : TalkArr) (ty : GoString) : TalkArr :=
  filterTalksByType_loop ty tArr []

/-! ## Go's `sort` package as used through `sort.Sort(TalkArr(talkArr))`

The routine is `sort.Sort` of the Go standard library as released from go1.6 to go1.18, the
releases the repository was written for (it has no `go.mod`): quicksort with a median-of-three
pivot, heapsort once the depth budget is used up, and for at most 12 elements one ShellSort
pass with gap 6 followed by insertion sort.  Every access to the data goes through `Len`, `Less` and `Swap`.  Indices are
Go `int`s that never become negative, so they are `Nat` here.  A result `none` is a panic, an
index out of range.  A loop that counts upwards takes as its first `Nat` argument a bound on
the iterations it may still make, which its caller computes from the range it works on; a
bound that is used up gives `none` as well, and `Sort_spec` shows that neither happens: the
result of `Sort_` is always `some`. -/
namespace sort

/-- Inner loop of `insertionSort`:
`for j := i; j > a && data.Less(j, j-1); j-- { data.Swap(j, j-1) }`. -/
def insertionSort_inner (a : Nat) : Nat → TalkArr → Option TalkArr
  | 0, data => some data
  | j + 1, data =>
    if a < j + 1 then do
      if (← TalkArr.Less data (j + 1) j) then
        let data ← TalkArr.Swap data (j + 1) j
        insertionSort_inner a j data
      else pure data
    else pure data

/-- Outer loop of `insertionSort`: `for i := a + 1; i < b; i++`; `n` bounds the iterations. -/
def insertionSort_outer (a b : Nat) : Nat → Nat → TalkArr → Option TalkArr
  | 0, _, _ => none
  | n + 1, i, data =>
    if i < b then do
      let data ← insertionSort_inner a i data
      insertionSort_outer a b n (i + 1) data
    else pure data

/-- Go `insertionSort(data, a, b)`. -/
def insertionSort (data : TalkArr) (a b : Nat) : Option TalkArr :=
  insertionSort_outer a b (b - a + 1) (a + 1) data

/-- The loop of `siftDown`, `root` being the loop variable. -/
def siftDown_loop (hi first : Nat) : Nat → Nat → TalkArr → Option TalkArr
  | 0, _, _ => none
  | n + 1, root, data =>
    let child := 2 * root + 1
    if child ≥ hi then pure data
    else do
      let child ← (if child + 1 < hi then do
          if (← TalkArr.Less data (first + child) (first + child + 1)) then pure (child + 1)
          else pure child
        else pure child)
      if !(← TalkArr.Less data (first + root) (first + child)) then pure data
      else do
        let data ← TalkArr.Swap data (first + root) (first + child)
        siftDown_loop hi first n child data

/-- Go `siftDown(data, lo, hi, first)`: implements the heap property on `data[lo, hi)`. -/
def siftDown (data : TalkArr) (lo hi first : Nat) : Option TalkArr :=
  siftDown_loop hi first (hi - lo + 1) lo data

/-- First loop of `heapSort`: `for i := (hi - 1) / 2; i >= 0; i-- { siftDown(data, i, hi, first) }`;
the argument is `i + 1`. -/
def heapSort_build (hi first : Nat) : Nat → TalkArr → Option TalkArr
  | 0, data => pure data
  | i + 1, data => do
    let data ← siftDown data i hi first
    heapSort_build hi first i data

/-- Second loop of `heapSort`:
`for i := hi - 1; i >= 0; i-- { data.Swap(first, first+i); siftDown(data, lo, i, first) }`;
the argument is `i + 1`. -/
def heapSort_pop (lo first : Nat) : Nat → TalkArr → Option TalkArr
  | 0, data => pure data
  | i + 1, data => do
    let data ← TalkArr.Swap data first (first + i)
    let data ← siftDown data lo i first
    heapSort_pop lo first i data

/-- Go `heapSort(data, a, b)`. -/
def heapSort (data : TalkArr) (a b : Nat) : Option TalkArr := do
  let first := a
  let lo := 0
  let hi := b - a
  let data ← heapSort_build hi first ((hi - 1) / 2 + 1) data
  heapSort_pop lo first hi data

/-- Go `medianOfThree(data, m1, m0, m2)`: moves the median of the three values
`data[m0], data[m1], data[m2]` into `data[m1]`. -/
def medianOfThree (data : TalkArr) (m1 m0 m2 : Nat) : Option TalkArr := do
  let data ← (if (← TalkArr.Less data m1 m0) then TalkArr.Swap data m1 m0 else pure data)
  if (← TalkArr.Less data m2 m1) then do
    let data ← TalkArr.Swap data m2 m1
    if (← TalkArr.Less data m1 m0) then TalkArr.Swap data m1 m0 else pure data
  else pure data

/-- In `doPivot`: `for ; a < c && data.Less(a, pivot); a++ {}`; returns the final `a`. -/
def doPivot_skipLess (data : TalkArr) (pivot c : Nat) : Nat → Nat → Option Nat
  | 0, _ => none
  | n + 1, a =>
    if a < c then do
      if (← TalkArr.Less data a pivot) then doPivot_skipLess data pivot c n (a + 1)
      else pure a
    else pure a

/-- In `doPivot`: `for ; b < c && !data.Less(pivot, b); b++ {}`; returns the final `b`. -/
def doPivot_skipLe (data : TalkArr) (pivot c : Nat) : Nat → Nat → Option Nat
  | 0, _ => none
  | n + 1, b =>
    if b < c then do
      if !(← TalkArr.Less data pivot b) then doPivot_skipLe data pivot c n (b + 1)
      else pure b
    else pure b

/-- In `doPivot`: `for ; b < c && data.Less(pivot, c-1); c-- {}`; returns the final `c`. -/
def doPivot_skipGt (data : TalkArr) (pivot b : Nat) : Nat → Option Nat
  | 0 => pure 0
  | c + 1 =>
    if b < c + 1 then do
      if (← TalkArr.Less data pivot c) then doPivot_skipGt data pivot b c
      else pure (c + 1)
    else pure (c + 1)

/-- The partitioning loop of `doPivot` (`for { ...; if b >= c { break }; data.Swap(b, c-1); b++; c-- }`);
returns the data with the final `b` and `c`. -/
def doPivot_partition (pivot : Nat) : Nat → TalkArr → Nat → Nat → Option (TalkArr × Nat × Nat)
  | 0, _, _, _ => none
  | n + 1, data, b, c => do
    let b ← doPivot_skipLe data pivot c (c - b + 1) b
    let c ← doPivot_skipGt data pivot b c
    if b ≥ c then pure (data, b, c)
    else do
      let data ← TalkArr.Swap data b (c - 1)
      doPivot_partition pivot n data (b + 1) (c - 1)

/-- In the duplicate protection of `doPivot`: `for ; a < b && !data.Less(b-1, pivot); b-- {}`. -/
def doPivot_skipEqDown (data : TalkArr) (pivot a : Nat) : Nat → Option Nat
  | 0 => pure 0
  | b + 1 =>
    if a < b + 1 then do
      if !(← TalkArr.Less data b pivot) then doPivot_skipEqDown data pivot a b
      else pure (b + 1)
    else pure (b + 1)

/-- The duplicate protection loop of `doPivot`
(`for { ...; if a >= b { break }; data.Swap(a, b-1); a++; b-- }`); returns the data and the final `b`. -/
def doPivot_protect (pivot : Nat) : Nat → TalkArr → Nat → Nat → Option (TalkArr × Nat)
  | 0, _, _, _ => none
  | n + 1, data, a, b => do
    let b ← doPivot_skipEqDown data pivot a b
    let a ← doPivot_skipLess data pivot b (b - a + 1) a
    if a ≥ b then pure (data, b)
    else do
      let data ← TalkArr.Swap data a (b - 1)
      doPivot_protect pivot n data (a + 1) (b - 1)

/-- In `doPivot`, the block under `if !protect && hi-c < (hi-lo)/4`: tests three points for
equality to the pivot; returns the data, `b`, `c` and `dups`. -/
def doPivot_dups (data : TalkArr) (pivot m hi b c : Nat) : Option (TalkArr × Nat × Nat × Nat) := do
  let dups := 0
  let (data, c, dups) ← (if !(← TalkArr.Less data pivot (hi - 1)) then do
      let data ← TalkArr.Swap data c (hi - 1)
      pure (data, c + 1, dups + 1)
    else pure (data, c, dups))
  let (b, dups) ← (if !(← TalkArr.Less data (b - 1) pivot) then pure (b - 1, dups + 1)
    else pure (b, dups))
  let (data, b, dups) ← (if !(← TalkArr.Less data m pivot) then do
      let data ← TalkArr.Swap data m (b - 1)
      pure (data, b - 1, dups + 1)
    else pure (data, b, dups))
  pure (data, b, c, dups)

/-- Go `doPivot(data, lo, hi)`; returns the data with `midlo` and `midhi`. -/
def doPivot (data : TalkArr) (lo hi : Nat) : Option (TalkArr × Nat × Nat) := do
  let m := (lo + hi) / 2
  let data ← (if hi - lo > 40 then do
      let s := (hi - lo) / 8
      let data ← medianOfThree data lo (lo + s) (lo + 2 * s)
      let data ← medianOfThree data m (m - s) (m + s)
      medianOfThree data (hi - 1) (hi - 1 - s) (hi - 1 - 2 * s)
    else pure data)
  let data ← medianOfThree data lo m (hi - 1)
  let pivot := lo
  let a := lo + 1
  let c := hi - 1
  let a ← doPivot_skipLess data pivot c (c - a + 1) a
  let b := a
  let (data, b, c) ← doPivot_partition pivot (c - b + 1) data b c
  let protect := decide (hi - c < 5)
  let (data, b, c, protect) ← (if !protect && decide (hi - c < (hi - lo) / 4) then do
      let (data, b, c, dups) ← doPivot_dups data pivot m hi b c
      pure (data, b, c, decide (dups > 1))
    else pure (data, b, c, protect))
  let (data, b) ← (if protect then doPivot_protect pivot (b - a + 1) data a b else pure (data, b))
  let data ← TalkArr.Swap data pivot (b - 1)
  pure (data, b - 1, c)

/-- In `quickSort`, the ShellSort pass with gap 6:
`for i := a + 6; i < b; i++ { if data.Less(i, i-6) { data.Swap(i, i-6) } }`. -/
def quickSort_shell (b : Nat) : Nat → Nat → TalkArr → Option TalkArr
  | 0, _, _ => none
  | n + 1, i, data =>
    if i < b then do
      let data ← (if (← TalkArr.Less data i (i - 6)) then TalkArr.Swap data i (i - 6) else pure data)
      quickSort_shell b n (i + 1) data
    else pure data

/-- The tail of `quickSort`, reached once `b-a <= 12`: the ShellSort pass and the insertion sort
under `if b-a > 1`. -/
def quickSort_small (data : TalkArr) (a b : Nat) : Option TalkArr :=
  if b - a > 1 then do
    let data ← quickSort_shell b (b - a + 1) (a + 6) data
    insertionSort data a b
  else pure data

/-- Go `quickSort(data, a, b, maxDepth)`.  The `for b-a > 12` loop continues on one side of the
pivot after the recursive call on the other; that continuation is the second call here. -/
def quickSort (data : TalkArr) (a b : Nat) : Nat → Option TalkArr
  | 0 =>
    if b - a > 12 then heapSort data a b
    else quickSort_small data a b
  | maxDepth + 1 =>
    if b - a > 12 then do
      let (data, mlo, mhi) ← doPivot data a b
      if mlo - a < b - mhi then do
        let data ← quickSort data a mlo maxDepth
        quickSort data mhi b maxDepth
      else do
        let data ← quickSort data mhi b maxDepth
        quickSort data a mlo maxDepth
    else quickSort_small data a b

/-- The loop of `maxDepth`: `for i := n; i > 0; i >>= 1 { depth++ }`. -/
def maxDepth_loop : Nat → Nat → Nat → Nat
  | 0, _, depth => depth
  | k + 1, i, depth => if i > 0 then maxDepth_loop k (i / 2) (depth + 1) else depth

/-- Go `maxDepth(n)`: a threshold at which quicksort should switch to heapsort,
`2*ceil(lg(n+1))`. -/
def maxDepth (n : Nat) : Nat := maxDepth_loop n n 0 * 2

/-- Go `sort.Sort(data)` (`Sort` is a keyword of Lean). -/
def Sort_ (data : TalkArr) : Option TalkArr :=
  let n := TalkArr.Len data
  quickSort data 0 n (maxDepth n)

end sort

/-! ## Go's `encoding/json` as used through `json.NewEncoder(buff).Encode(talk)` and
`json.NewDecoder(resp.Body).Decode(&talkArr)`

The codec is described on JSON values, following the documentation of `Marshal` and
`Unmarshal`: which value a `Talk` is encoded as, and which `Talk` a value is decoded to. -/

/-- A JSON value.  `number n` is a number literal without fraction and exponent, `fraction` any
other number literal; `string s` carries the bytes the string literal denotes. -/
inductive JSON where
  | null
  | bool (b : Bool)
  | number (n : Int)
  | fraction
  | string (s : GoString)
  | array (elems : List JSON)
  | object (members : List (GoString × JSON))

namespace utf8

/-- Go's tables `first` and `acceptRanges` of `unicode/utf8`: for a leading byte above ASCII,
the length of the sequence and the range accepted for the second byte; `none` for an invalid
leading byte. -/
def first (s0 : Nat) : Option (Nat × Nat × Nat) :=
  if s0 < 0xC2 then none
  else if s0 ≤ 0xDF then some (2, 0x80, 0xBF)
  else if s0 = 0xE0 then some (3, 0xA0, 0xBF)
  else if s0 ≤ 0xEC then some (3, 0x80, 0xBF)
  else if s0 = 0xED then some (3, 0x80, 0x9F)
  else if s0 ≤ 0xEF then some (3, 0x80, 0xBF)
  else if s0 = 0xF0 then some (4, 0x90, 0xBF)
  else if s0 ≤ 0xF3 then some (4, 0x80, 0xBF)
  else if s0 = 0xF4 then some (4, 0x80, 0x8F)
  else none

/-- Go `utf8.DecodeRuneInString`, as far as its callers here need it: whether the string starts
with a well-formed encoding (`false` is the result `RuneError, 1`), and the width in bytes. -/
def DecodeRuneInString : GoString → Bool × Nat
  | [] => (false, 0)
  | s0 :: rest =>
    if s0 < 0x80 then (true, 1)
    else
      match first s0 with
      | none => (false, 1)
      | some (sz, lo, hi) =>
        match rest with
        | [] => (false, 1)
        | s1 :: r1 =>
          if s1 < lo || hi < s1 then (false, 1)
          else if sz ≤ 2 then (true, 2)
          else
            match r1 with
            | [] => (false, 1)
            | s2 :: r2 =>
              if s2 < 0x80 || 0xBF < s2 then (false, 1)
              else if sz ≤ 3 then (true, 3)
              else
                match r2 with
                | [] => (false, 1)
                | s3 :: _ =>
                  if s3 < 0x80 || 0xBF < s3 then (false, 1)
                  else (true, 4)

/-- Go `utf8.ValidString`, the first argument counting the bytes still to pass of the encoding
that was last decoded. -/
def ValidString_loop : Nat → GoString → Bool
  | _, [] => true
  | k + 1, _ :: rest => ValidString_loop k rest
  | 0, s0 :: rest =>
    (DecodeRuneInString (s0 :: rest)).1 &&
      ValidString_loop ((DecodeRuneInString (s0 :: rest)).2 - 1) rest

/-- Go `utf8.ValidString(s)`: `s` consists entirely of valid UTF-8-encoded runes. -/
def ValidString (s : GoString) : Bool := ValidString_loop 0 s

end utf8

namespace json

/-- The coercion to valid UTF-8 that the encoder applies to a string value and the decoder to a
string literal: well-formed encodings are kept, every other byte becomes U+FFFD (`EF BF BD`).
The first argument counts the bytes still to copy of the encoding that was last decoded. -/
def toValidUTF8_loop : Nat → GoString → GoString
  | _, [] => []
  | k + 1, b :: rest => b :: toValidUTF8_loop k rest
  | 0, s0 :: rest =>
    if (utf8.DecodeRuneInString (s0 :: rest)).1 then
      s0 :: toValidUTF8_loop ((utf8.DecodeRuneInString (s0 :: rest)).2 - 1) rest
    else 0xEF :: 0xBF :: 0xBD :: toValidUTF8_loop 0 rest

/-- "String values encode as JSON strings coerced to valid UTF-8, replacing invalid bytes with
the Unicode replacement rune." -/
def toValidUTF8 (s : GoString) : GoString := toValidUTF8_loop 0 s

/-- The JSON value `Encode` writes for a `Talk`: an object with one member per field, named by
the field's `json:"..."` tag, in the order of the fields. -/
def Encode (t : Talk) : JSON :=
  .object [
    (lit "id", .number t.ID),
    (lit "name", .string (toValidUTF8 t.Name)),
    (lit "type", .string (toValidUTF8 t.Typ)),
    (lit "desc", .string (toValidUTF8 t.Desc)),
    (lit "hidden", .bool t.Hidden)]

/-- The fields of `Talk`. -/
inductive Field where
  | ID | Name | Typ | Desc | Hidden
deriving DecidableEq

/-- The `json:"..."` tags of `Talk`, in the order of the fields. -/
def fields : List (GoString × Field) :=
  [(lit "id", .ID), (lit "name", .Name), (lit "type", .Typ), (lit "desc", .Desc),
    (lit "hidden", .Hidden)]

/-- Case folding of an object key: ASCII letters to lower case, and the two letters outside
ASCII that fold to an ASCII letter, U+017F (long s) and U+212A (Kelvin sign). -/
def foldName : GoString → GoString
  | [] => []
  | 0xC5 :: 0xBF :: rest => 0x73 :: foldName rest
  | 0xE2 :: 0x84 :: 0xAA :: rest => 0x6B :: foldName rest
  | b :: rest => (if 0x41 ≤ b ∧ b ≤ 0x5A then b + 0x20 else b) :: foldName rest

/-- The field an object key is matched to: "preferring an exact match but also accepting a
case-insensitive match"; `none` when no field corresponds and the member is ignored. -/
def fieldOf (k : GoString) : Option Field :=
  match fields.find? (fun f => f.1 = k) with
  | some f => some f.2
  | none => (fields.find? (fun f => foldName f.1 = foldName k)).map (fun f => f.2)

/-- Decoding one JSON value into one field of a `Talk`.  `null` has no effect; a value "not
appropriate for the target type" or a number that overflows `int` is an error (`none`). -/
def setField (t : Talk) (f : Field) (v : JSON) : Option Talk :=
  match v with
  | .null => some t
  | _ =>
    match f, v with
    | .ID, .number n =>
      if -(2 ^ 63 : Int) ≤ n ∧ n < 2 ^ 63 then some { t with ID := n } else none
    | .Name, .string s => some { t with Name := toValidUTF8 s }
    | .Typ, .string s => some { t with Typ := toValidUTF8 s }
    | .Desc, .string s => some { t with Desc := toValidUTF8 s }
    | .Hidden, .bool b => some { t with Hidden := b }
    | _, _ => none

/-- Decoding the members of an object into a `Talk`, in their order in the text. -/
def decodeMembers : Talk → List (GoString × JSON) → Option Talk
  | t, [] => some t
  | t, (k, v) :: rest =>
    match fieldOf (toValidUTF8 k) with
    | none => decodeMembers t rest
    | some f =>
      match setField t f v with
      | none => none
      | some t2 => decodeMembers t2 rest

/-- Decoding a JSON value into a `Talk` that holds its zero value: an object member by member,
`null` without effect, anything else is an error. -/
def decodeTalk : JSON → Option Talk
  | .object members => decodeMembers Talk.zero members
  | .null => some Talk.zero
  | _ => none

/-- Decoding the elements of an array, each into a new element appended to the slice. -/
def decodeElems : List JSON → Option TalkArr
  | [] => some []
  | v :: rest =>
    match decodeTalk v with
    | none => none
    | some t =>
      match decodeElems rest with
      | none => none
      | some ts => some (t :: ts)

/-- `Decode(&talkArr)` on a response body.  The decoder reads the first JSON value of the body
and leaves what follows it unread: the argument is that value, `none` for a body that does not
start with a JSON value (an empty body among them).  An array is decoded element by element,
`null` gives the nil slice, anything else is an error (`none`). -/
def Decode : Option JSON → Option TalkArr
  | some (.array elems) => decodeElems elems
  | some .null => some []
  | _ => none

end json

/-! ## The handlers -/

/-- How a handler ends: it returns, it calls `os.Exit(code)`, or it panics. -/
inductive Status where
  | returned
  | exit (code : Int)
  | panic
deriving DecidableEq

/-- The exit status the operating system sees: 0 after a return of the command, the low 8 bits
of the argument of `os.Exit`, 2 after a panic. -/
def Status.exitStatus : Status → Int
  | .returned => 0
  | .exit code => code % 256
  | .panic => 2

/-- An HTTP request issued by a handler. -/
inductive Request where
  | get (url : GoString)
  | post (url contentType : GoString) (body : JSON)

/-- What `http.Get` and `http.Post` return: an error, or a response with its body, given as
the first JSON value the body holds (`none` a body that does not start with a JSON value). -/
inductive HttpResult where
  | err
  | resp (body : Option JSON)

/-- What one run of a handler does: the texts written to stdout, one per call of `fmt.Printf`
or `fmt.Println`; the HTTP requests issued; how it ends. -/
structure Outcome where
  stdout : List GoString
  requests : List Request
  status : Status

/-- Go `formatResponse(resp)`: `talkArr := TalkArr{}`, then the JSON decoder; `none` is the
`panic(err)`. -/
def formatResponse (body : Option JSON) : Option TalkArr :=
  json.Decode body

/-- In `getTalks`: "Filter talks if flag is present, sort by talks otherwise". -/
def getTalks_select (talkArr : TalkArr) (flagTalkType : GoString) : Option TalkArr :=
  if flagTalkType.length ≠ 0 then some (filterTalksByType talkArr flagTalkType)
  else sort.Sort_ talkArr

/-- In `getTalks`: the text of `fmt.Printf("There are currently %d talks scheduled\n", n)`. -/
def getTalks_summary (n : Nat) : GoString :=
  lit "There are currently " ++ lit (toString n) ++ lit " talks scheduled\n"

/-- In `getTalks`: the text of `fmt.Printf("[%s]: %s by %s\n", v.Type, v.Desc, v.Name)`. -/
def getTalks_line (v : Talk) : GoString :=
  lit "[" ++ v.Typ ++ lit "]: " ++ v.Desc ++ lit " by " ++ v.Name ++ lit "\n"

/-- In `getTalks`: the summary and the loop `for _, v := range talkArr` printing one line per
talk. -/
def getTalks_print (talkArr : TalkArr) : List GoString :=
  talkArr.foldl (fun out v => out ++ [getTalks_line v]) [getTalks_summary (TalkArr.Len talkArr)]

/-- Go `getTalks`, given what `http.Get` returns and the value of the flag `--type`. -/
def getTalks (get : HttpResult) (flagTalkType : GoString) : Outcome :=
  let requests := [Request.get (lit "http://talks.cosi.clarkson.edu/api/talks/visible")]
  match get with
  | .err => ⟨[], requests, .panic⟩
  | .resp body =>
    match formatResponse body with
    | none => ⟨[], requests, .panic⟩
    | some talkArr =>
      match getTalks_select talkArr flagTalkType with
      | none => ⟨[], requests, .panic⟩
      | some talkArr => ⟨getTalks_print talkArr, requests, .returned⟩

/-- In `postTalk`: the record built from the flags, `Talk{Name: ..., Type: ..., Desc: ...}`. -/
def postTalk_talk (flagTalkName flagTalkType flagTalkDesc : GoString) : Talk :=
  { Talk.zero with Name := flagTalkName, Typ := flagTalkType, Desc := flagTalkDesc }

/-- Go `postTalk`, given the values of the flags `--name`, `--type`, `--desc` and what
`http.Post` returns. -/
def postTalk (flagTalkName flagTalkType flagTalkDesc : GoString) (post : HttpResult) : Outcome :=
  if flagTalkName.length = 0 || flagTalkType.length = 0 || flagTalkDesc.length = 0 then
    ⟨[lit "Error: One of the three fields is null. Exiting...\n"], [], .exit (-1)⟩
  else
    let talk := postTalk_talk flagTalkName flagTalkType flagTalkDesc
    let buff := json.Encode talk
    let requests := [Request.post (lit "http://talks.cosi.clarkson.edu/api/postTalk")
      (lit "application/json; charset=utf-8") buff]
    match post with
    | .err => ⟨[], requests, .panic⟩
    | .resp _ => ⟨[], requests, .returned⟩

/-! ## Data of the end-to-end scenarios -/

/-- The two talks of the mocked server of the end-to-end scenarios. -/
def scenarioTalks : TalkArr :=
  [⟨1, lit "A", lit "z", lit "dz", false⟩, ⟨2, lit "B", lit "a", lit "da", false⟩]

/-- The response body of the mocked server: the JSON array of `scenarioTalks`. -/
def scenarioBody : Option JSON :=
  some (.array (scenarioTalks.map json.Encode))

/-- A response of 13 talks: two of type `b` (by `P1`, then by `P2`) before eleven of type `a`. -/
def tiedTalks : TalkArr :=
  [⟨1, lit "P1", lit "b", lit "d1", false⟩, ⟨2, lit "P2", lit "b", lit "d2", false⟩,
   ⟨3, lit "P3", lit "a", lit "d3", false⟩, ⟨4, lit "P4", lit "a", lit "d4", false⟩,
   ⟨5, lit "P5", lit "a", lit "d5", false⟩, ⟨6, lit "P6", lit "a", lit "d6", false⟩,
   ⟨7, lit "P7", lit "a", lit "d7", false⟩, ⟨8, lit "P8", lit "a", lit "d8", false⟩,
   ⟨9, lit "P9", lit "a", lit "d9", false⟩, ⟨10, lit "P10", lit "a", lit "d10", false⟩,
   ⟨11, lit "P11", lit "a", lit "d11", false⟩, ⟨12, lit "P12", lit "a", lit "d12", false⟩,
   ⟨13, lit "P13", lit "a", lit "d13", false⟩]

/-- The response body carrying `tiedTalks`. -/
def tiedBody : Option JSON :=
  some (.array (tiedTalks.map json.Encode))

/-- A talk whose name is the single byte `0xFF`, which is not valid UTF-8. -/
def rawTalk : Talk := ⟨0, [0xFF], lit "demo", lit "hello", false⟩

/-! ## Predicates used in the proofs -/

/-- The sort key of the record at index `i`: its `Type` field (the empty string off the end). -/
def key (d : TalkArr) (i : Nat) : GoString :=
  match d[i]? with
  | some t => t.Typ
  | none => []

/-- The array `d2` is reached from `d` by finitely many calls of `Swap` with both indices in `[lo, hi)`. -/
inductive SwapsIn (lo hi : Nat) : TalkArr → TalkArr → Prop
  | refl (d : TalkArr) : SwapsIn lo hi d d
  | step {d d1 d2 : TalkArr} (i j : Nat) : lo ≤ i → i < hi → lo ≤ j → j < hi →
      TalkArr.Swap d i j = some d1 → SwapsIn lo hi d1 d2 → SwapsIn lo hi d d2

/-- The records at the indices of `[lo, hi)` are in non-decreasing order of their keys. -/
def SortedOn (d : TalkArr) (lo hi : Nat) : Prop :=
  ∀ i j, lo ≤ i → i ≤ j → j < hi → key d i ≤ key d j

/-- The array `d2` is reached from `d` by finitely many calls `Swap(j+1, j)` with `j, j+1` in
`[lo, hi)`, each made when the record at `j+1` has a strictly smaller key than the one at `j`. -/
inductive AdjSwapsIn (lo hi : Nat) : TalkArr → TalkArr → Prop
  | refl (d : TalkArr) : AdjSwapsIn lo hi d d
  | step {d d1 d2 : TalkArr} (j : Nat) : lo ≤ j → j + 1 < hi → key d (j + 1) < key d j →
      TalkArr.Swap d (j + 1) j = some d1 → AdjSwapsIn lo hi d1 d2 → AdjSwapsIn lo hi d d2

/-- In the heap laid out from index `first`, node `r` is not smaller than its children below `hi`. -/
def HeapAt (d : TalkArr) (first hi r : Nat) : Prop :=
  ∀ c, c < hi → (c = 2 * r + 1 ∨ c = 2 * r + 2) → key d (first + c) ≤ key d (first + r)

/-- The heap property on the nodes of `[lo, hi)`. -/
def HeapFrom (d : TalkArr) (first hi lo : Nat) : Prop :=
  ∀ r, lo ≤ r → HeapAt d first hi r

/-- A record as a Go program can hold it after decoding: `ID` in the range of `int` and the
three strings valid UTF-8. -/
def RoundTrips (t : Talk) : Prop :=
  (-(2 ^ 63 : Int) ≤ t.ID ∧ t.ID < 2 ^ 63) ∧ utf8.ValidString t.Name = true ∧
    utf8.ValidString t.Typ = true ∧ utf8.ValidString t.Desc = true

/-! ## `Swap` and `Less` -/

open sort

theorem Swap_eq {d : TalkArr} {i j : Nat} (hi : i < d.length) (hj : j < d.length) :
    TalkArr.Swap d i j = some ((d.set i d[j]).set j d[i]) := by
  simp [TalkArr.Swap, List.getElem?_eq_getElem hi, List.getElem?_eq_getElem hj]

theorem Swap_some_iff {d d1 : TalkArr} {i j : Nat} (h : TalkArr.Swap d i j = some d1) :
    ∃ (hi : i < d.length) (hj : j < d.length), d1 = (d.set i d[j]).set j d[i] := by
  unfold TalkArr.Swap at h
  by_cases hi : i < d.length
  · by_cases hj : j < d.length
    · refine ⟨hi, hj, ?_⟩
      simp [List.getElem?_eq_getElem hi, List.getElem?_eq_getElem hj] at h
      exact h.symm
    · simp [List.getElem?_eq_none (Nat.le_of_not_lt hj)] at h
  · simp [List.getElem?_eq_none (Nat.le_of_not_lt hi)] at h

theorem Less_eq {d : TalkArr} {i j : Nat} (hi : i < d.length) (hj : j < d.length) :
    TalkArr.Less d i j = some (decide (key d i < key d j)) := by
  simp [TalkArr.Less, key, List.getElem?_eq_getElem hi, List.getElem?_eq_getElem hj]

theorem Swap_length {d d1 : TalkArr} {i j : Nat} (h : TalkArr.Swap d i j = some d1) :
    d1.length = d.length := by
  obtain ⟨_, _, rfl⟩ := Swap_some_iff h
  simp

theorem Swap_getElem? {d d1 : TalkArr} {i j : Nat} (h : TalkArr.Swap d i j = some d1) (k : Nat) :
    d1[k]? = if k = j then d[i]? else if k = i then d[j]? else d[k]? := by
  obtain ⟨hi, hj, rfl⟩ := Swap_some_iff h
  by_cases hkj : k = j
  · subst hkj
    simp [List.getElem?_set, hj, hi]
  · by_cases hki : k = i
    · subst hki
      simp [List.getElem?_set, hkj, Ne.symm hkj, hi, hj]
    · simp [List.getElem?_set, hkj, hki, Ne.symm hkj, Ne.symm hki]

theorem Swap_key {d d1 : TalkArr} {i j : Nat} (h : TalkArr.Swap d i j = some d1) (k : Nat) :
    key d1 k = if k = j then key d i else if k = i then key d j else key d k := by
  unfold key
  rw [Swap_getElem? h k]
  split_ifs <;> rfl

theorem Swap_perm {d d1 : TalkArr} {i j : Nat} (h : TalkArr.Swap d i j = some d1) :
    d1.Perm d := by
  obtain ⟨hi, hj, rfl⟩ := Swap_some_iff h
  rw [List.perm_iff_count]
  intro a
  rw [List.count_set _ _ _ _ (by simpa using hj), List.count_set _ _ _ _ hi]
  have hci : d[i] = a → 0 < d.count a := fun e => e ▸ List.count_pos_iff.mpr (List.getElem_mem hi)
  have hcj : d[j] = a → 0 < d.count a := fun e => e ▸ List.count_pos_iff.mpr (List.getElem_mem hj)
  by_cases hij : i = j
  · subst hij
    simp only [List.getElem_set_self, beq_iff_eq]
    by_cases hx : d[i] = a
    · have := hci hx
      simp only [hx, if_true]; omega
    · simp only [hx, if_false]; omega
  · simp only [List.getElem_set_ne hij, beq_iff_eq]
    by_cases hx : d[i] = a <;> by_cases hy : d[j] = a
    · have := hci hx
      simp only [hx, hy, if_true]; omega
    · have := hci hx
      simp only [hx, hy, if_true, if_false]; omega
    · have := hcj hy
      simp only [hx, hy, if_true, if_false]; omega
    · simp only [hx, hy, if_false]; omega

/-! ## Sequences of `Swap` calls, and the insertion sort -/

theorem SwapsIn.length_eq {lo hi : Nat} {d d2 : TalkArr} (h : SwapsIn lo hi d d2) :
    d2.length = d.length := by
  induction h with
  | refl => rfl
  | step i j _ _ _ _ hs _ ih => rw [ih, Swap_length hs]

theorem SwapsIn.perm {lo hi : Nat} {d d2 : TalkArr} (h : SwapsIn lo hi d d2) : d2.Perm d := by
  induction h with
  | refl => exact List.Perm.refl _
  | step i j _ _ _ _ hs _ ih => exact ih.trans (Swap_perm hs)

theorem SwapsIn.getElem?_out {lo hi : Nat} {d d2 : TalkArr} (h : SwapsIn lo hi d d2) (k : Nat)
    (hk : k < lo ∨ hi ≤ k) : d2[k]? = d[k]? := by
  induction h with
  | refl => rfl
  | step i j h1 h2 h3 h4 hs _ ih =>
    rw [ih, Swap_getElem? hs k, if_neg (by omega), if_neg (by omega)]

theorem SwapsIn.key_out {lo hi : Nat} {d d2 : TalkArr} (h : SwapsIn lo hi d d2) (k : Nat)
    (hk : k < lo ∨ hi ≤ k) : key d2 k = key d k := by
  unfold key
  rw [h.getElem?_out k hk]

theorem SwapsIn.trans {lo hi : Nat} {d d1 d2 : TalkArr} (h : SwapsIn lo hi d d1)
    (h' : SwapsIn lo hi d1 d2) : SwapsIn lo hi d d2 := by
  induction h with
  | refl => exact h'
  | step i j h1 h2 h3 h4 hs _ ih => exact SwapsIn.step i j h1 h2 h3 h4 hs (ih h')

theorem SwapsIn.mono {lo hi lo2 hi2 : Nat} {d d2 : TalkArr} (h : SwapsIn lo hi d d2)
    (hlo : lo2 ≤ lo) (hhi : hi ≤ hi2) : SwapsIn lo2 hi2 d d2 := by
  induction h with
  | refl => exact SwapsIn.refl _
  | step i j h1 h2 h3 h4 hs _ ih =>
    exact SwapsIn.step i j (by omega) (by omega) (by omega) (by omega) hs ih

theorem SwapsIn.single {lo hi : Nat} {d d1 : TalkArr} {i j : Nat} (hs : TalkArr.Swap d i j = some d1)
    (h1 : lo ≤ i) (h2 : i < hi) (h3 : lo ≤ j) (h4 : j < hi) : SwapsIn lo hi d d1 :=
  SwapsIn.step i j h1 h2 h3 h4 hs (SwapsIn.refl _)

theorem SwapsIn.forall_key {lo hi : Nat} {d d2 : TalkArr} (h : SwapsIn lo hi d d2)
    (P : GoString → Prop) (hP : ∀ k, lo ≤ k → k < hi → P (key d k)) :
    ∀ k, lo ≤ k → k < hi → P (key d2 k) := by
  induction h with
  | refl => exact hP
  | step i j h1 h2 h3 h4 hs _ ih =>
    apply ih
    intro k hk1 hk2
    rw [Swap_key hs k]
    split_ifs
    · exact hP i h1 h2
    · exact hP j h3 h4
    · exact hP k hk1 hk2

theorem SwapsIn.sortedOn_out {lo hi a b : Nat} {d d2 : TalkArr} (h : SwapsIn lo hi d d2)
    (hs : SortedOn d a b) (hab : b ≤ lo ∨ hi ≤ a) : SortedOn d2 a b := by
  intro i j h1 h2 h3
  rw [h.key_out i (by omega), h.key_out j (by omega)]
  exact hs i j h1 h2 h3

theorem AdjSwapsIn.swapsIn {lo hi : Nat} {d d2 : TalkArr} (h : AdjSwapsIn lo hi d d2) :
    SwapsIn lo hi d d2 := by
  induction h with
  | refl => exact SwapsIn.refl _
  | step j h1 h2 _ hs _ ih => exact SwapsIn.step (j + 1) j (by omega) h2 h1 (by omega) hs ih

theorem AdjSwapsIn.append {lo hi : Nat} {d d1 d2 : TalkArr} (h : AdjSwapsIn lo hi d d1)
    (h' : AdjSwapsIn lo hi d1 d2) : AdjSwapsIn lo hi d d2 := by
  induction h with
  | refl => exact h'
  | step j h1 h3 h4 hs _ ih => exact AdjSwapsIn.step j h1 h3 h4 hs (ih h')

theorem AdjSwapsIn.widen {lo hi lo2 hi2 : Nat} {d d2 : TalkArr} (h : AdjSwapsIn lo hi d d2)
    (hlo : lo2 ≤ lo) (hhi : hi ≤ hi2) : AdjSwapsIn lo2 hi2 d d2 := by
  induction h with
  | refl => exact AdjSwapsIn.refl _
  | step j h1 h2 h3 hs _ ih => exact AdjSwapsIn.step j (by omega) (by omega) h3 hs ih

/-- The inner loop of the insertion sort moves the record at `j` down to its place. -/
theorem insertionSort_inner_spec (a i : Nat) :
    ∀ (j : Nat) (d : TalkArr), a ≤ j → j ≤ i → i < d.length →
      (∀ p q, a ≤ p → p ≤ q → q ≤ i → p ≠ j → q ≠ j → key d p ≤ key d q) →
      (∀ q, j < q → q ≤ i → key d j ≤ key d q) →
      ∃ d2, insertionSort_inner a j d = some d2 ∧ AdjSwapsIn a (i + 1) d d2 ∧
        SortedOn d2 a (i + 1) := by
  intro j
  induction j with
  | zero =>
    intro d ha _ _ h1 h2
    refine ⟨d, rfl, AdjSwapsIn.refl _, ?_⟩
    intro p q hp hpq hq
    by_cases hp0 : p = 0
    · subst hp0
      by_cases hq0 : q = 0
      · subst hq0; exact le_refl _
      · exact h2 q (by omega) (by omega)
    · exact h1 p q hp hpq (by omega) hp0 (by omega)
  | succ j ih =>
    intro d ha hji hlen h1 h2
    unfold insertionSort_inner
    by_cases haj : a < j + 1
    · rw [if_pos haj, Less_eq (by omega) (by omega)]
      by_cases hlt : key d (j + 1) < key d j
      · obtain ⟨d1, hd1⟩ : ∃ d1, TalkArr.Swap d (j + 1) j = some d1 :=
          ⟨_, Swap_eq (by omega) (by omega)⟩
        have hk := Swap_key hd1
        have hlen1 := Swap_length hd1
        obtain ⟨d2, hd2, hsw, hsorted⟩ := ih d1 (by omega) (by omega) (by omega)
          (by
            intro p q hp hpq hq hpj hqj
            by_cases hpq2 : p = q
            · rw [hpq2]
            rw [hk p, hk q]
            by_cases hp1 : p = j + 1
            · have hq1 : q ≠ j + 1 := by omega
              rw [if_neg hpj, if_pos hp1, if_neg hqj, if_neg hq1]
              exact h1 j q (by omega) (by omega) hq (by omega) hq1
            · by_cases hq1 : q = j + 1
              · rw [if_neg hpj, if_neg hp1, if_neg hqj, if_pos hq1]
                exact h1 p j hp (by omega) (by omega) hp1 (by omega)
              · rw [if_neg hpj, if_neg hp1, if_neg hqj, if_neg hq1]
                exact h1 p q hp hpq hq hp1 hq1)
          (by
            intro q hjq hq
            rw [hk j, hk q, if_pos rfl, if_neg (by omega)]
            by_cases hq1 : q = j + 1
            · rw [if_pos hq1]; exact le_of_lt hlt
            · rw [if_neg hq1]; exact h2 q (by omega) hq)
        refine ⟨d2, ?_, AdjSwapsIn.step j (by omega) (by omega) hlt hd1 hsw, hsorted⟩
        simp [hlt, hd1, hd2]
      · refine ⟨d, by simp [hlt], AdjSwapsIn.refl _, ?_⟩
        intro p q hp hpq hq
        by_cases hpj : p = j + 1
        · by_cases hqj : q = j + 1
          · rw [hpj, hqj]
          · rw [hpj]; exact h2 q (by omega) (by omega)
        · by_cases hqj : q = j + 1
          · rw [hqj]
            by_cases hpj2 : p = j
            · rw [hpj2]; exact not_lt.mp hlt
            · exact le_trans (h1 p j hp (by omega) (by omega) hpj (by omega)) (not_lt.mp hlt)
          · exact h1 p q hp hpq (by omega) hpj hqj
    · rw [if_neg haj]
      have haj2 : a = j + 1 := by omega
      refine ⟨d, rfl, AdjSwapsIn.refl _, ?_⟩
      intro p q hp hpq hq
      by_cases hpj : p = j + 1
      · by_cases hqj : q = j + 1
        · rw [hpj, hqj]
        · rw [hpj]; exact h2 q (by omega) (by omega)
      · exact h1 p q hp hpq (by omega) hpj (by omega)

theorem insertionSort_outer_spec (a b : Nat) :
    ∀ (n i : Nat) (d : TalkArr), b ≤ d.length → a < i → b < i + n → 0 < n → SortedOn d a i →
      ∃ d2, insertionSort_outer a b n i d = some d2 ∧ AdjSwapsIn a b d d2 ∧
        SortedOn d2 a (max i b) := by
  intro n
  induction n with
  | zero =>
    intro i d _ _ _ hn
    omega
  | succ n ih =>
    intro i d hlen hai hn _ hs
    unfold insertionSort_outer
    by_cases hib : i < b
    · rw [if_pos hib]
      obtain ⟨d1, hd1, hsw1, hs1⟩ := insertionSort_inner_spec a i i d (by omega) (le_refl _)
        (by omega)
        (fun p q hp hpq hq hpi hqi => hs p q hp hpq (by omega))
        (fun q h1 h2 => by omega)
      have hlen1 := hsw1.swapsIn.length_eq
      obtain ⟨d2, hd2, hsw2, hs2⟩ := ih (i + 1) d1 (by omega) (by omega) (by omega) (by omega) hs1
      refine ⟨d2, ?_, (hsw1.widen (le_refl _) (by omega)).append hsw2, ?_⟩
      · simp [hd1, hd2]
      · rw [show max i b = max (i + 1) b by omega]; exact hs2
    · rw [if_neg hib]
      refine ⟨d, rfl, AdjSwapsIn.refl _, ?_⟩
      rw [show max i b = i by omega]; exact hs

theorem insertionSort_spec (d : TalkArr) (a b : Nat) (hlen : b ≤ d.length) :
    ∃ d2, insertionSort d a b = some d2 ∧ AdjSwapsIn a b d d2 ∧ SortedOn d2 a b := by
  obtain ⟨d2, h1, h2, h3⟩ := insertionSort_outer_spec a b (b - a + 1) (a + 1) d hlen (by omega)
    (by omega) (by omega) (by intro i j h1 h2 h3; rw [show i = j by omega])
  refine ⟨d2, h1, h2, ?_⟩
  intro i j hi hij hj
  exact h3 i j hi hij (by omega)

/-! ## The ShellSort pass and the heapsort -/

theorem quickSort_shell_spec (a b : Nat) :
    ∀ (n i : Nat) (d : TalkArr), b ≤ d.length → a + 6 ≤ i → b < i + n → 0 < n →
      ∃ d2, quickSort_shell b n i d = some d2 ∧ SwapsIn a b d d2 := by
  intro n
  induction n with
  | zero => intro i d _ _ _ hn; omega
  | succ n ih =>
    intro i d hlen hai hn _
    unfold quickSort_shell
    by_cases hib : i < b
    · rw [if_pos hib, Less_eq (by omega) (by omega)]
      by_cases hlt : key d i < key d (i - 6)
      · obtain ⟨d1, hd1⟩ : ∃ d1, TalkArr.Swap d i (i - 6) = some d1 :=
          ⟨_, Swap_eq (by omega) (by omega)⟩
        have hlen1 := Swap_length hd1
        obtain ⟨d2, hd2, hsw⟩ := ih (i + 1) d1 (by omega) (by omega) (by omega) (by omega)
        refine ⟨d2, by simp [hlt, hd1, hd2], ?_⟩
        exact SwapsIn.step i (i - 6) (by omega) hib (by omega) (by omega) hd1 hsw
      · obtain ⟨d2, hd2, hsw⟩ := ih (i + 1) d (by omega) (by omega) (by omega) (by omega)
        exact ⟨d2, by simp [hlt, hd2], hsw⟩
    · rw [if_neg hib]
      exact ⟨d, rfl, SwapsIn.refl _⟩

theorem siftDown_loop_spec (hi first lo : Nat) :
    ∀ (n root : Nat) (d : TalkArr), first + hi ≤ d.length → lo ≤ root → hi < root + n → 0 < n →
      (∀ r, lo ≤ r → r ≠ root → HeapAt d first hi r) →
      (∀ p, lo ≤ p → (root = 2 * p + 1 ∨ root = 2 * p + 2) →
        ∀ c, c < hi → (c = 2 * root + 1 ∨ c = 2 * root + 2) →
          key d (first + c) ≤ key d (first + p)) →
      ∃ d2, siftDown_loop hi first n root d = some d2 ∧
        SwapsIn (first + lo) (first + hi) d d2 ∧ HeapFrom d2 first hi lo := by
  intro n
  induction n with
  | zero => intro root d _ _ _ hn; omega
  | succ n ih =>
    intro root d hlen hlo hn _ hheap hgp
    unfold siftDown_loop
    simp only []
    by_cases hch : 2 * root + 1 ≥ hi
    · rw [if_pos hch]
      refine ⟨d, rfl, SwapsIn.refl _, ?_⟩
      intro r hr
      by_cases hrr : r = root
      · subst hrr
        intro c hc hcc
        omega
      · exact hheap r hr hrr
    · rw [if_neg hch]
      -- the child that is compared with the root
      obtain ⟨child, hsel, hc1, hc2, hmax⟩ : ∃ child,
          (if 2 * root + 1 + 1 < hi then do
              if (← TalkArr.Less d (first + (2 * root + 1)) (first + (2 * root + 1) + 1)) then
                pure (2 * root + 1 + 1)
              else pure (2 * root + 1)
            else pure (2 * root + 1)) = some child ∧
          (child = 2 * root + 1 ∨ child = 2 * root + 2) ∧ child < hi ∧
          ∀ c, c < hi → (c = 2 * root + 1 ∨ c = 2 * root + 2) →
            key d (first + c) ≤ key d (first + child) := by
        by_cases h2 : 2 * root + 1 + 1 < hi
        · rw [if_pos h2, Less_eq (by omega) (by omega)]
          by_cases hlt : key d (first + (2 * root + 1)) < key d (first + (2 * root + 1) + 1)
          · refine ⟨2 * root + 2, by simp [hlt], Or.inr rfl, by omega, ?_⟩
            intro c hc hcc
            rcases hcc with rfl | rfl
            · exact le_of_lt hlt
            · exact le_refl _
          · refine ⟨2 * root + 1, by simp [hlt], Or.inl rfl, by omega, ?_⟩
            intro c hc hcc
            rcases hcc with rfl | rfl
            · exact le_refl _
            · exact not_lt.mp hlt
        · rw [if_neg h2]
          refine ⟨2 * root + 1, rfl, Or.inl rfl, by omega, ?_⟩
          intro c hc hcc
          rcases hcc with rfl | rfl
          · exact le_refl _
          · omega
      by_cases hlt : key d (first + root) < key d (first + child)
      · obtain ⟨d1, hd1⟩ : ∃ d1, TalkArr.Swap d (first + root) (first + child) = some d1 :=
          ⟨_, Swap_eq (by omega) (by omega)⟩
        have hlen1 := Swap_length hd1
        have hk := Swap_key hd1
        have hkroot : key d1 (first + root) = key d (first + child) := by
          rw [hk, if_neg (by omega), if_pos rfl]
        have hkchild : key d1 (first + child) = key d (first + root) := by
          rw [hk, if_pos rfl]
        have hkother : ∀ x, x ≠ root → x ≠ child → key d1 (first + x) = key d (first + x) := by
          intro x h1 h2
          rw [hk, if_neg (by omega), if_neg (by omega)]
        obtain ⟨d2, hd2, hsw, hpost⟩ := ih child d1 (by omega) (by omega) (by omega) (by omega)
          (by
            intro r hr hrc c hc hcc
            by_cases hrr : r = root
            · subst hrr
              rw [hkroot]
              by_cases hcch : c = child
              · rw [hcch, hkchild]; exact le_of_lt hlt
              · rw [hkother c (by omega) hcch]; exact hmax c hc hcc
            · rw [hkother r hrr hrc]
              by_cases hcr : c = root
              · rw [hcr, hkroot]
                exact hgp r hr (by omega) child hc2 hc1
              · rw [hkother c hcr (by omega)]
                exact hheap r hr hrr c hc hcc)
          (by
            intro p hp hpc c hc hcc
            have hpr : p = root := by omega
            subst hpr
            rw [hkroot, hkother c (by omega) (by omega)]
            exact hheap child (by omega) (by omega) c hc hcc)
        refine ⟨d2, ?_, ?_, hpost⟩
        · rw [hsel]
          simp [Less_eq (show first + root < d.length by omega) (show first + child < d.length by omega),
            hlt, hd1, hd2]
        · exact SwapsIn.step (first + root) (first + child) (by omega) (by omega) (by omega)
            (by omega) hd1 (hsw.mono (by omega) (le_refl _))
      · refine ⟨d, ?_, SwapsIn.refl _, ?_⟩
        · rw [hsel]
          simp [Less_eq (show first + root < d.length by omega) (show first + child < d.length by omega),
            hlt]
        · intro r hr
          by_cases hrr : r = root
          · subst hrr
            intro c hc hcc
            exact le_trans (hmax c hc hcc) (not_lt.mp hlt)
          · exact hheap r hr hrr

theorem siftDown_spec (d : TalkArr) (lo hi first : Nat) (hlen : first + hi ≤ d.length)
    (hheap : HeapFrom d first hi (lo + 1)) :
    ∃ d2, siftDown d lo hi first = some d2 ∧
      SwapsIn (first + lo) (first + hi) d d2 ∧ HeapFrom d2 first hi lo := by
  unfold siftDown
  apply siftDown_loop_spec hi first lo (hi - lo + 1) lo d hlen (le_refl _) (by omega) (by omega)
  · intro r hr hrr
    exact hheap r (by omega)
  · intro p hp hpp
    omega

theorem heapSort_build_spec (hi first : Nat) :
    ∀ (k : Nat) (d : TalkArr), first + hi ≤ d.length → HeapFrom d first hi k →
      ∃ d2, heapSort_build hi first k d = some d2 ∧
        SwapsIn first (first + hi) d d2 ∧ HeapFrom d2 first hi 0 := by
  intro k
  induction k with
  | zero =>
    intro d _ h
    exact ⟨d, rfl, SwapsIn.refl _, h⟩
  | succ k ih =>
    intro d hlen h
    obtain ⟨d1, hd1, hsw1, hh1⟩ := siftDown_spec d k hi first hlen h
    have hlen1 := hsw1.length_eq
    obtain ⟨d2, hd2, hsw2, hh2⟩ := ih d1 (by omega) hh1
    refine ⟨d2, ?_, (hsw1.mono (by omega) (le_refl _)).trans hsw2, hh2⟩
    unfold heapSort_build
    simp [hd1, hd2]

theorem HeapFrom.root_max {d : TalkArr} {first hi : Nat} (h : HeapFrom d first hi 0) :
    ∀ c, c < hi → key d (first + c) ≤ key d (first + 0) := by
  intro c
  induction c using Nat.strong_induction_on with
  | _ c ih =>
    intro hc
    by_cases hc0 : c = 0
    · subst hc0; exact le_refl _
    · have h1 := h ((c - 1) / 2) (Nat.zero_le _) c hc (by omega)
      exact le_trans h1 (ih ((c - 1) / 2) (by omega) (by omega))

theorem heapSort_pop_spec (first hi : Nat) :
    ∀ (k : Nat) (d : TalkArr), first + hi ≤ d.length → k ≤ hi → HeapFrom d first k 0 →
      SortedOn d (first + k) (first + hi) →
      (∀ x y, x < k → k ≤ y → y < hi → key d (first + x) ≤ key d (first + y)) →
      ∃ d2, heapSort_pop 0 first k d = some d2 ∧
        SwapsIn first (first + hi) d d2 ∧ SortedOn d2 first (first + hi) := by
  intro k
  induction k with
  | zero =>
    intro d _ _ _ hs _
    exact ⟨d, rfl, SwapsIn.refl _, by simpa using hs⟩
  | succ k ih =>
    intro d hlen hk hheap hs hcross
    obtain ⟨d1, hd1⟩ : ∃ d1, TalkArr.Swap d first (first + k) = some d1 :=
      ⟨_, Swap_eq (by omega) (by omega)⟩
    have hlen1 := Swap_length hd1
    have hkey := Swap_key hd1
    have hmax := hheap.root_max
    have hkk : key d1 (first + k) = key d (first + 0) := by
      rw [hkey, if_pos rfl]; rfl
    have hk0 : k ≠ 0 → key d1 (first + 0) = key d (first + k) := by
      intro hk0
      rw [hkey, if_neg (by omega), if_pos (by omega)]
    have hkother : ∀ x, x ≠ 0 → x ≠ k → key d1 (first + x) = key d (first + x) := by
      intro x h1 h2
      rw [hkey, if_neg (by omega), if_neg (by omega)]
    have hkall : ∀ x, x < k → key d1 (first + x) ≤ key d (first + 0) := by
      intro x hx
      by_cases hx0 : x = 0
      · subst hx0
        rw [hk0 (by omega)]
        exact hmax k (by omega)
      · rw [hkother x hx0 (by omega)]
        exact hmax x (by omega)
    obtain ⟨d2, hd2, hsw2, hh2⟩ := siftDown_spec d1 0 k first (by omega)
      (by
        intro r hr c hc hcc
        rw [hkother r (by omega) (by omega), hkother c (by omega) (by omega)]
        exact hheap r (Nat.zero_le _) c (by omega) hcc)
    have hlen2 := hsw2.length_eq
    have hsw2' : SwapsIn first (first + k) d1 d2 := by simpa using hsw2
    obtain ⟨d3, hd3, hsw3, hs3⟩ := ih d2 (by omega) (by omega) hh2
      (by
        intro i j hi hij hj
        rw [hsw2'.key_out i (by omega), hsw2'.key_out j (by omega)]
        by_cases hik : i = first + k
        · subst hik
          by_cases hjk : j = first + k
          · subst hjk; exact le_refl _
          · rw [hkk, show j = first + (j - first) by omega,
              hkother (j - first) (by omega) (by omega)]
            exact hcross 0 (j - first) (by omega) (by omega) (by omega)
        · rw [show i = first + (i - first) by omega, show j = first + (j - first) by omega,
            hkother (i - first) (by omega) (by omega), hkother (j - first) (by omega) (by omega)]
          rw [← show i = first + (i - first) by omega, ← show j = first + (j - first) by omega]
          exact hs i j (by omega) hij hj)
      (by
        intro x y hx hy hyh
        have h1 : key d2 (first + x) ≤ key d (first + 0) := by
          have := hsw2'.forall_key (fun s => s ≤ key d (first + 0))
            (by
              intro q hq1 hq2
              rw [show q = first + (q - first) by omega]
              exact hkall (q - first) (by omega))
            (first + x) (by omega) (by omega)
          exact this
        rw [hsw2'.key_out (first + y) (by omega)]
        by_cases hyk : y = k
        · subst hyk; rw [hkk]; exact h1
        · rw [hkother y (by omega) hyk]
          exact le_trans h1 (hcross 0 y (by omega) (by omega) hyh))
    refine ⟨d3, ?_, ?_, hs3⟩
    · unfold heapSort_pop
      simp [hd1, hd2, hd3]
    · exact SwapsIn.step first (first + k) (le_refl _) (by omega) (by omega) (by omega) hd1
        ((hsw2'.mono (le_refl _) (by omega)).trans hsw3)

theorem heapSort_spec (d : TalkArr) (a b : Nat) (hab : a ≤ b) (hlen : b ≤ d.length) :
    ∃ d2, heapSort d a b = some d2 ∧ SwapsIn a b d d2 ∧ SortedOn d2 a b := by
  obtain ⟨d1, hd1, hsw1, hh1⟩ := heapSort_build_spec (b - a) a ((b - a - 1) / 2 + 1) d (by omega)
    (by
      intro r hr c hc hcc
      omega)
  have hlen1 := hsw1.length_eq
  obtain ⟨d2, hd2, hsw2, hs2⟩ := heapSort_pop_spec a (b - a) (b - a) d1 (by omega) (le_refl _) hh1
    (by intro i j h1 h2 h3; omega)
    (by intro x y h1 h2 h3; omega)
  have e : a + (b - a) = b := by omega
  rw [e] at hsw1 hsw2 hs2
  refine ⟨d2, ?_, hsw1.trans hsw2, hs2⟩
  unfold heapSort
  simp [hd1, hd2]

/-! ## The pivot: `medianOfThree` and `doPivot` -/

theorem medianOfThree_spec (lo hi : Nat) (d : TalkArr) (m1 m0 m2 : Nat) (hlen : hi ≤ d.length)
    (h1 : lo ≤ m1 ∧ m1 < hi) (h0 : lo ≤ m0 ∧ m0 < hi) (h2 : lo ≤ m2 ∧ m2 < hi) :
    ∃ d2, medianOfThree d m1 m0 m2 = some d2 ∧ SwapsIn lo hi d d2 ∧
      (m0 ≠ m1 → m1 ≠ m2 → m0 ≠ m2 → key d2 m0 ≤ key d2 m1 ∧ key d2 m1 ≤ key d2 m2) := by
  unfold medianOfThree
  -- first comparison
  obtain ⟨da, hda, hswa, hlena, hka⟩ : ∃ da,
      (if decide (key d m1 < key d m0) = true then TalkArr.Swap d m1 m0 else pure d) = some da ∧
      SwapsIn lo hi d da ∧ da.length = d.length ∧
      (m0 ≠ m1 → key da m0 ≤ key da m1) := by
    by_cases hlt : key d m1 < key d m0
    · obtain ⟨da, hda⟩ : ∃ da, TalkArr.Swap d m1 m0 = some da :=
        ⟨_, Swap_eq (by omega) (by omega)⟩
      refine ⟨da, by simp [hlt, hda], SwapsIn.single hda h1.1 h1.2 h0.1 h0.2, Swap_length hda, ?_⟩
      intro hne
      rw [Swap_key hda m0, Swap_key hda m1, if_pos rfl, if_neg (Ne.symm hne), if_pos rfl]
      exact le_of_lt hlt
    · exact ⟨d, by simp [hlt], SwapsIn.refl _, rfl, fun _ => not_lt.mp hlt⟩
  rw [Less_eq (by omega) (by omega)]
  simp only [Option.bind_eq_bind, Option.some_bind]
  rw [hda]
  simp only [Option.bind_eq_bind, Option.some_bind]
  rw [Less_eq (by omega) (by omega)]
  by_cases hlt2 : key da m2 < key da m1
  · obtain ⟨db, hdb⟩ : ∃ db, TalkArr.Swap da m2 m1 = some db :=
      ⟨_, Swap_eq (by omega) (by omega)⟩
    have hlenb := Swap_length hdb
    have hkb := Swap_key hdb
    by_cases hlt3 : key db m1 < key db m0
    · obtain ⟨dc, hdc⟩ : ∃ dc, TalkArr.Swap db m1 m0 = some dc :=
        ⟨_, Swap_eq (by omega) (by omega)⟩
      have hkc := Swap_key hdc
      refine ⟨dc, ?_, ?_, ?_⟩
      · simp [hlt2, hdb, Less_eq (show m1 < db.length by omega) (show m0 < db.length by omega),
          hlt3, hdc]
      · exact hswa.trans (SwapsIn.step m2 m1 h2.1 h2.2 h1.1 h1.2 hdb
          (SwapsIn.single hdc h1.1 h1.2 h0.1 h0.2))
      · intro n01 n12 n02
        rw [hkc m0, hkc m1, hkc m2, if_pos rfl, if_neg (Ne.symm n01), if_pos rfl,
          if_neg (Ne.symm n02), if_neg (Ne.symm n12)]
        refine ⟨le_of_lt hlt3, ?_⟩
        rw [hkb m0, hkb m2, if_neg n01, if_neg n02, if_neg (Ne.symm n12), if_pos rfl]
        exact hka n01
    · refine ⟨db, ?_, ?_, ?_⟩
      · simp [hlt2, hdb, Less_eq (show m1 < db.length by omega) (show m0 < db.length by omega),
          hlt3]
      · exact hswa.trans (SwapsIn.single hdb h2.1 h2.2 h1.1 h1.2)
      · intro n01 n12 n02
        refine ⟨not_lt.mp hlt3, ?_⟩
        rw [hkb m1, hkb m2, if_pos rfl, if_neg (Ne.symm n12), if_pos rfl]
        exact le_of_lt hlt2
  · refine ⟨da, by simp [hlt2], hswa, ?_⟩
    intro n01 n12 n02
    exact ⟨hka n01, not_lt.mp hlt2⟩

theorem doPivot_skipLess_spec (d : TalkArr) (pivot c : Nat) (hp : pivot < d.length)
    (hc : c ≤ d.length) :
    ∀ (n a : Nat), c < a + n → 0 < n →
      ∃ a2, doPivot_skipLess d pivot c n a = some a2 ∧ a ≤ a2 ∧ (a ≤ c → a2 ≤ c) ∧
        (∀ k, a ≤ k → k < a2 → key d k < key d pivot) ∧
        (a2 < c → ¬ key d a2 < key d pivot) := by
  intro n
  induction n with
  | zero => intro a _ hn; omega
  | succ n ih =>
    intro a hn _
    unfold doPivot_skipLess
    by_cases hac : a < c
    · rw [if_pos hac, Less_eq (by omega) hp]
      by_cases hlt : key d a < key d pivot
      · obtain ⟨a2, h1, h2, h3, h4, h5⟩ := ih (a + 1) (by omega) (by omega)
        refine ⟨a2, by simp [hlt, h1], by omega, fun _ => h3 (by omega), ?_, h5⟩
        intro k hk1 hk2
        by_cases hka : k = a
        · rw [hka]; exact hlt
        · exact h4 k (by omega) hk2
      · exact ⟨a, by simp [hlt], le_refl _, fun h => h, fun k h1 h2 => by omega, fun _ => hlt⟩
    · rw [if_neg hac]
      exact ⟨a, rfl, le_refl _, fun h => h, fun k h1 h2 => by omega, fun h => by omega⟩

theorem doPivot_skipLe_spec (d : TalkArr) (pivot c : Nat) (hp : pivot < d.length)
    (hc : c ≤ d.length) :
    ∀ (n b : Nat), c < b + n → 0 < n →
      ∃ b2, doPivot_skipLe d pivot c n b = some b2 ∧ b ≤ b2 ∧ (b ≤ c → b2 ≤ c) ∧
        (∀ k, b ≤ k → k < b2 → key d k ≤ key d pivot) ∧
        (b2 < c → key d pivot < key d b2) := by
  intro n
  induction n with
  | zero => intro b _ hn; omega
  | succ n ih =>
    intro b hn _
    unfold doPivot_skipLe
    by_cases hbc : b < c
    · rw [if_pos hbc, Less_eq hp (by omega)]
      by_cases hlt : key d pivot < key d b
      · exact ⟨b, by simp [hlt], le_refl _, fun h => h, fun k h1 h2 => by omega, fun _ => hlt⟩
      · obtain ⟨b2, h1, h2, h3, h4, h5⟩ := ih (b + 1) (by omega) (by omega)
        refine ⟨b2, by simp [hlt, h1], by omega, fun _ => h3 (by omega), ?_, h5⟩
        intro k hk1 hk2
        by_cases hkb : k = b
        · rw [hkb]; exact not_lt.mp hlt
        · exact h4 k (by omega) hk2
    · rw [if_neg hbc]
      exact ⟨b, rfl, le_refl _, fun h => h, fun k h1 h2 => by omega, fun h => by omega⟩

theorem doPivot_skipGt_spec (d : TalkArr) (pivot b : Nat) (hp : pivot < d.length) :
    ∀ (c : Nat), c ≤ d.length →
      ∃ c2, doPivot_skipGt d pivot b c = some c2 ∧ c2 ≤ c ∧ (b ≤ c → b ≤ c2) ∧
        (∀ k, c2 ≤ k → k < c → key d pivot < key d k) ∧
        (b < c2 → ¬ key d pivot < key d (c2 - 1)) := by
  intro c
  induction c with
  | zero =>
    intro _
    exact ⟨0, rfl, le_refl _, fun h => h, fun k h1 h2 => by omega, fun h => by omega⟩
  | succ c ih =>
    intro hc
    unfold doPivot_skipGt
    by_cases hbc : b < c + 1
    · rw [if_pos hbc, Less_eq hp (by omega)]
      by_cases hlt : key d pivot < key d c
      · obtain ⟨c2, h1, h2, h3, h4, h5⟩ := ih (by omega)
        refine ⟨c2, by simp [hlt, h1], by omega, fun _ => h3 (by omega), ?_, h5⟩
        intro k hk1 hk2
        by_cases hkc : k = c
        · rw [hkc]; exact hlt
        · exact h4 k hk1 (by omega)
      · exact ⟨c + 1, by simp [hlt], le_refl _, fun h => h, fun k h1 h2 => by omega,
          fun _ => by simpa using hlt⟩
    · rw [if_neg hbc]
      exact ⟨c + 1, rfl, le_refl _, fun h => h, fun k h1 h2 => by omega, fun h => by omega⟩

theorem doPivot_skipEqDown_spec (d : TalkArr) (pivot a : Nat) (hp : pivot < d.length) :
    ∀ (b : Nat), b ≤ d.length →
      ∃ b2, doPivot_skipEqDown d pivot a b = some b2 ∧ b2 ≤ b ∧ (a ≤ b → a ≤ b2) ∧
        (∀ k, b2 ≤ k → k < b → ¬ key d k < key d pivot) ∧
        (a < b2 → key d (b2 - 1) < key d pivot) := by
  intro b
  induction b with
  | zero =>
    intro _
    exact ⟨0, rfl, le_refl _, fun h => h, fun k h1 h2 => by omega, fun h => by omega⟩
  | succ b ih =>
    intro hb
    unfold doPivot_skipEqDown
    by_cases hab : a < b + 1
    · rw [if_pos hab, Less_eq (by omega) hp]
      by_cases hlt : key d b < key d pivot
      · exact ⟨b + 1, by simp [hlt], le_refl _, fun h => h, fun k h1 h2 => by omega,
          fun _ => by simpa using hlt⟩
      · obtain ⟨b2, h1, h2, h3, h4, h5⟩ := ih (by omega)
        refine ⟨b2, by simp [hlt, h1], by omega, fun _ => h3 (by omega), ?_, h5⟩
        intro k hk1 hk2
        by_cases hkb : k = b
        · rw [hkb]; exact hlt
        · exact h4 k hk1 (by omega)
    · rw [if_neg hab]
      exact ⟨b + 1, rfl, le_refl _, fun h => h, fun k h1 h2 => by omega, fun h => by omega⟩

theorem doPivot_partition_spec (pivot a0 c0 : Nat) :
    ∀ (n : Nat) (d : TalkArr) (b c : Nat), pivot < b → b ≤ c → c ≤ d.length → c < b + n → 0 < n →
      (∀ k, a0 ≤ k → k < b → key d k ≤ key d pivot) →
      (∀ k, c ≤ k → k < c0 → key d pivot < key d k) →
      ∃ d2 b2, doPivot_partition pivot n d b c = some (d2, b2, b2) ∧ b ≤ b2 ∧ b2 ≤ c ∧
        SwapsIn b c d d2 ∧
        (∀ k, a0 ≤ k → k < b2 → key d2 k ≤ key d2 pivot) ∧
        (∀ k, b2 ≤ k → k < c0 → key d2 pivot < key d2 k) := by
  intro n
  induction n with
  | zero => intro d b c _ _ _ _ hn; omega
  | succ n ih =>
    intro d b c hpb hbc hc hn _ hle hgt
    unfold doPivot_partition
    obtain ⟨b1, hb1, h1a, h1b, h1c, h1d⟩ :=
      doPivot_skipLe_spec d pivot c (by omega) hc (c - b + 1) b (by omega) (by omega)
    have hb1c := h1b hbc
    obtain ⟨c1, hc1, h2a, h2b, h2c, h2d⟩ := doPivot_skipGt_spec d pivot b1 (by omega) c hc
    have hb1c1 := h2b hb1c
    simp only [hb1, hc1, Option.bind_eq_bind, Option.some_bind]
    by_cases hge : b1 ≥ c1
    · have e : b1 = c1 := by omega
      subst e
      refine ⟨d, b1, by simp, h1a, hb1c, SwapsIn.refl _, ?_, ?_⟩
      · intro k hk1 hk2
        by_cases hkb : k < b
        · exact hle k hk1 hkb
        · exact h1c k (by omega) hk2
      · intro k hk1 hk2
        by_cases hkc : k < c
        · exact h2c k hk1 hkc
        · exact hgt k (by omega) hk2
    · have hlt1 : key d pivot < key d b1 := h1d (by omega)
      have hle1 : key d (c1 - 1) ≤ key d pivot := not_lt.mp (h2d (by omega))
      have hne : b1 ≠ c1 - 1 := by
        intro e
        rw [← e] at hle1
        exact absurd hlt1 (not_lt.mpr hle1)
      obtain ⟨d1, hd1⟩ : ∃ d1, TalkArr.Swap d b1 (c1 - 1) = some d1 :=
        ⟨_, Swap_eq (by omega) (by omega)⟩
      have hlen1 := Swap_length hd1
      have hk := Swap_key hd1
      have hkp : key d1 pivot = key d pivot := by
        rw [hk, if_neg (by omega), if_neg (by omega)]
      obtain ⟨d2, b2, hd2, h3a, h3b, hsw, h3c, h3d⟩ := ih d1 (b1 + 1) (c1 - 1) (by omega)
        (by omega) (by omega) (by omega) (by omega)
        (by
          intro k hk1 hk2
          rw [hkp, hk k, if_neg (by omega)]
          by_cases hkb1 : k = b1
          · rw [if_pos hkb1]; exact hle1
          · rw [if_neg hkb1]
            by_cases hkb : k < b
            · exact hle k hk1 hkb
            · exact h1c k (by omega) (by omega))
        (by
          intro k hk1 hk2
          rw [hkp, hk k]
          by_cases hkc1 : k = c1 - 1
          · rw [if_pos hkc1]; exact hlt1
          · rw [if_neg hkc1, if_neg (by omega)]
            by_cases hkc : k < c
            · exact h2c k (by omega) hkc
            · exact hgt k (by omega) hk2)
      refine ⟨d2, b2, ?_, by omega, by omega, ?_, h3c, h3d⟩
      · simp [hge, hd1, hd2]
      · exact SwapsIn.step b1 (c1 - 1) (by omega) (by omega) (by omega) (by omega) hd1
          (hsw.mono (by omega) (by omega))

theorem doPivot_protect_spec (pivot : Nat) :
    ∀ (n : Nat) (d : TalkArr) (a b : Nat), pivot < a → a ≤ b → b ≤ d.length → b < a + n → 0 < n →
      (∀ k, a ≤ k → k < b → key d k ≤ key d pivot) →
      ∃ d2 b2, doPivot_protect pivot n d a b = some (d2, b2) ∧ a ≤ b2 ∧ b2 ≤ b ∧
        SwapsIn a b d d2 ∧
        (∀ k, a ≤ k → k < b2 → key d2 k < key d2 pivot) ∧
        (∀ k, b2 ≤ k → k < b → key d2 k = key d2 pivot) := by
  intro n
  induction n with
  | zero => intro d a b _ _ _ _ hn; omega
  | succ n ih =>
    intro d a b hpa hab hb hn _ hle
    unfold doPivot_protect
    obtain ⟨b1, hb1, h1a, h1b, h1c, h1d⟩ := doPivot_skipEqDown_spec d pivot a (by omega) b hb
    have hab1 := h1b hab
    obtain ⟨a1, ha1, h2a, h2b, h2c, h2d⟩ :=
      doPivot_skipLess_spec d pivot b1 (by omega) (by omega) (b1 - a + 1) a (by omega) (by omega)
    have ha1b1 := h2b hab1
    simp only [hb1, ha1, Option.bind_eq_bind, Option.some_bind]
    have heq : ∀ k, b1 ≤ k → k < b → key d k = key d pivot := fun k hk1 hk2 =>
      le_antisymm (hle k (by omega) hk2) (not_lt.mp (h1c k hk1 hk2))
    by_cases hge : a1 ≥ b1
    · have e : a1 = b1 := by omega
      subst e
      exact ⟨d, a1, by simp, h2a, h1a, SwapsIn.refl _, h2c, heq⟩
    · have hlt1 : key d (b1 - 1) < key d pivot := h1d (by omega)
      have hnl : ¬ key d a1 < key d pivot := h2d (by omega)
      have hne : a1 ≠ b1 - 1 := by
        intro e
        rw [← e] at hlt1
        exact hnl hlt1
      obtain ⟨d1, hd1⟩ : ∃ d1, TalkArr.Swap d a1 (b1 - 1) = some d1 :=
        ⟨_, Swap_eq (by omega) (by omega)⟩
      have hlen1 := Swap_length hd1
      have hk := Swap_key hd1
      have hkp : key d1 pivot = key d pivot := by
        rw [hk, if_neg (by omega), if_neg (by omega)]
      have hsw1 : SwapsIn a b d d1 :=
        SwapsIn.single hd1 (by omega) (by omega) (by omega) (by omega)
      obtain ⟨d2, b2, hd2, h3a, h3b, hsw, h3c, h3d⟩ := ih d1 (a1 + 1) (b1 - 1) (by omega)
        (by omega) (by omega) (by omega) (by omega)
        (by
          intro k hk1 hk2
          rw [hkp, hk k, if_neg (by omega), if_neg (by omega)]
          exact hle k (by omega) (by omega))
      have hsw' : SwapsIn (a1 + 1) (b1 - 1) d1 d2 := hsw
      have hkp2 : key d2 pivot = key d pivot := by
        rw [hsw'.key_out pivot (by omega), hkp]
      refine ⟨d2, b2, ?_, by omega, by omega, hsw1.trans (hsw.mono (by omega) (by omega)), ?_, ?_⟩
      · simp [hge, hd1, hd2]
      · intro k hk1 hk2
        by_cases hka : k < a1 + 1
        · rw [hsw'.key_out k (by omega), hkp2, hk k, if_neg (by omega)]
          by_cases hka1 : k = a1
          · rw [if_pos hka1]; exact hlt1
          · rw [if_neg hka1]; exact h2c k hk1 (by omega)
        · exact h3c k (by omega) hk2
      · intro k hk1 hk2
        by_cases hkb : k < b1 - 1
        · exact h3d k hk1 hkb
        · rw [hsw'.key_out k (by omega), hkp2, hk k]
          by_cases hkb1 : k = b1 - 1
          · rw [if_pos hkb1]
            exact le_antisymm (hle a1 (by omega) (by omega)) (not_lt.mp hnl)
          · rw [if_neg hkb1, if_neg (by omega)]
            exact heq k (by omega) hk2

theorem doPivot_dups_spec (d : TalkArr) (lo a m hi b : Nat) (hlen : hi ≤ d.length)
    (hlo : lo < a) (hab : a ≤ b) (h5 : 5 ≤ hi - b) (hq : hi - b < (hi - lo) / 4)
    (hm : m = (lo + hi) / 2)
    (Hlt : ∀ k, lo < k → k < a → key d k < key d lo)
    (Hle : ∀ k, lo < k → k < b → key d k ≤ key d lo)
    (Hgt : ∀ k, b ≤ k → k < hi - 1 → key d lo < key d k)
    (Hlast : key d lo ≤ key d (hi - 1)) :
    ∃ d2 b2 c2 n, doPivot_dups d lo m hi b b = some (d2, b2, c2, n) ∧ SwapsIn a hi d d2 ∧
      a ≤ b2 ∧ b2 ≤ b ∧ b2 ≤ c2 ∧ c2 ≤ hi ∧
      (∀ k, lo < k → k < b2 → key d2 k ≤ key d2 lo) ∧
      (∀ k, b2 ≤ k → k < c2 → key d2 k = key d2 lo) ∧
      (∀ k, c2 ≤ k → k < hi → key d2 lo ≤ key d2 k) := by
  unfold doPivot_dups
  rw [Less_eq (by omega) (by omega)]
  simp only [Option.bind_eq_bind, Option.some_bind, Option.pure_def, Nat.zero_add]
  -- first test: `data[hi-1] = pivot`
  obtain ⟨d1, c1, n1, hst1, hsw1, hc1a, hc1b, G1, E1⟩ : ∃ d1 c1 n1,
      (if (!decide (key d lo < key d (hi - 1))) = true then
          (TalkArr.Swap d b (hi - 1)).bind fun data => some (data, b + 1, 1)
        else some (d, b, 0)) = some (d1, c1, n1) ∧
      SwapsIn b hi d d1 ∧ b ≤ c1 ∧ c1 ≤ b + 1 ∧
      (∀ k, c1 ≤ k → k < hi → key d lo < key d1 k) ∧
      (∀ k, b ≤ k → k < c1 → key d1 k = key d lo) := by
    by_cases hlt : key d lo < key d (hi - 1)
    · refine ⟨d, b, 0, by simp [hlt], SwapsIn.refl _, le_refl _, by omega, ?_, fun k h1 h2 => by omega⟩
      intro k hk1 hk2
      by_cases hk : k = hi - 1
      · rw [hk]; exact hlt
      · exact Hgt k hk1 (by omega)
    · obtain ⟨d1, hd1⟩ : ∃ d1, TalkArr.Swap d b (hi - 1) = some d1 :=
        ⟨_, Swap_eq (by omega) (by omega)⟩
      have hk := Swap_key hd1
      refine ⟨d1, b + 1, 1, by simp [hlt, hd1],
        SwapsIn.single hd1 (le_refl _) (by omega) (by omega) (by omega), by omega, le_refl _, ?_, ?_⟩
      · intro k hk1 hk2
        rw [hk k]
        by_cases hkl : k = hi - 1
        · rw [if_pos hkl]; exact Hgt b (le_refl _) (by omega)
        · rw [if_neg hkl, if_neg (by omega)]; exact Hgt k (by omega) (by omega)
      · intro k hk1 hk2
        have hkb : k = b := by omega
        rw [hkb, hk b, if_neg (by omega), if_pos rfl]
        exact le_antisymm (not_lt.mp hlt) Hlast
  rw [hst1]
  simp only [Option.some_bind]
  have hlen1 := hsw1.length_eq
  have hkeep1 : ∀ k, k < b → key d1 k = key d k := fun k hk => hsw1.key_out k (Or.inl hk)
  rw [Less_eq (by omega) (by omega)]
  simp only [Option.some_bind]
  -- second test: `data[b-1] = pivot`
  obtain ⟨b1, n2, hst2, hb1a, hb1b, E2⟩ : ∃ b1 n2,
      (if (!decide (key d1 (b - 1) < key d1 lo)) = true then some (b - 1, n1 + 1)
        else some (b, n1)) = some (b1, n2) ∧ b1 ≤ b ∧ b - 1 ≤ b1 ∧
      (∀ k, b1 ≤ k → k < b → key d1 k = key d lo) := by
    by_cases hlt : key d1 (b - 1) < key d1 lo
    · exact ⟨b, n1, by simp [hlt], le_refl _, by omega, fun k h1 h2 => by omega⟩
    · refine ⟨b - 1, n1 + 1, by simp [hlt], by omega, le_refl _, ?_⟩
      intro k hk1 hk2
      have hkb : k = b - 1 := by omega
      rw [hkb]
      rw [hkeep1 lo (by omega)] at hlt
      refine le_antisymm ?_ (not_lt.mp hlt)
      rw [hkeep1 (b - 1) (by omega)]
      exact Hle (b - 1) (by omega) (by omega)
  rw [hst2]
  simp only [Option.some_bind]
  rw [Less_eq (by omega) (by omega)]
  simp only [Option.some_bind]
  -- third test: `data[m] = pivot`
  by_cases hlt : key d1 m < key d1 lo
  · refine ⟨d1, b1, c1, n2, by simp [hlt], hsw1.mono hab (le_refl _), ?_, hb1a, by omega, by omega, ?_, ?_, ?_⟩
    · by_cases hbb : b1 = b
      · omega
      · have hb1 : b1 = b - 1 := by omega
        have := E2 (b - 1) (by omega) (by omega)
        rw [hkeep1 (b - 1) (by omega)] at this
        by_contra hcon
        have h3 := Hlt (b - 1) (by omega) (by omega)
        rw [this] at h3
        exact lt_irrefl _ h3
    · intro k hk1 hk2
      rw [hkeep1 k (by omega), hkeep1 lo (by omega)]
      exact Hle k hk1 (by omega)
    · intro k hk1 hk2
      rw [hkeep1 lo (by omega)]
      by_cases hkb : k < b
      · exact E2 k hk1 hkb
      · exact E1 k (by omega) hk2
    · intro k hk1 hk2
      rw [hkeep1 lo (by omega)]
      exact le_of_lt (G1 k hk1 hk2)
  · have hmeq : key d m = key d lo := by
      rw [hkeep1 m (by omega), hkeep1 lo (by omega)] at hlt
      exact le_antisymm (Hle m (by omega) (by omega)) (not_lt.mp hlt)
    have hma : a ≤ m := by
      by_contra hcon
      have h3 := Hlt m (by omega) (by omega)
      rw [hmeq] at h3
      exact lt_irrefl _ h3
    obtain ⟨d2, hd2⟩ : ∃ d2, TalkArr.Swap d1 m (b1 - 1) = some d2 :=
      ⟨_, Swap_eq (by omega) (by omega)⟩
    have hk := Swap_key hd2
    have hkp : key d2 lo = key d lo := by
      rw [hk, if_neg (by omega), if_neg (by omega), hkeep1 lo (by omega)]
    have hb1a2 : a < b1 := by
      by_cases hbb : b1 = b
      · omega
      · have hb1 : b1 = b - 1 := by omega
        have := E2 (b - 1) (by omega) (by omega)
        rw [hkeep1 (b - 1) (by omega)] at this
        by_contra hcon
        have hx : b - 1 ≤ a := by omega
        omega
    refine ⟨d2, b1 - 1, c1, n2 + 1, by simp [hlt, hd2], ?_, by omega, by omega, by omega, by omega,
      ?_, ?_, ?_⟩
    · exact (hsw1.mono hab (le_refl _)).trans
        (SwapsIn.single hd2 hma (by omega) (by omega) (by omega))
    · intro k hk1 hk2
      rw [hkp, hk k, if_neg (by omega)]
      by_cases hkm : k = m
      · rw [if_pos hkm, hkeep1 (b1 - 1) (by omega)]
        exact Hle (b1 - 1) (by omega) (by omega)
      · rw [if_neg hkm, hkeep1 k (by omega)]
        exact Hle k hk1 (by omega)
    · intro k hk1 hk2
      rw [hkp, hk k]
      by_cases hkb : k = b1 - 1
      · rw [if_pos hkb, hkeep1 m (by omega)]; exact hmeq
      · rw [if_neg hkb, if_neg (by omega)]
        by_cases hkb2 : k < b
        · exact E2 k (by omega) hkb2
        · exact E1 k (by omega) hk2
    · intro k hk1 hk2
      rw [hkp, hk k, if_neg (by omega), if_neg (by omega)]
      exact le_of_lt (G1 k hk1 hk2)

theorem doPivot_final_spec (d : TalkArr) (lo b c hi : Nat) (hlen : hi ≤ d.length)
    (hlb : lo < b) (hbc : b ≤ c) (hch : c ≤ hi)
    (Hle : ∀ k, lo < k → k < b → key d k ≤ key d lo)
    (Heq : ∀ k, b ≤ k → k < c → key d k = key d lo)
    (Hge : ∀ k, c ≤ k → k < hi → key d lo ≤ key d k) :
    ∃ d2, TalkArr.Swap d lo (b - 1) = some d2 ∧ SwapsIn lo hi d d2 ∧
      (∀ k, lo ≤ k → k < b - 1 → key d2 k ≤ key d2 (b - 1)) ∧
      (∀ k, b - 1 ≤ k → k < c → key d2 k = key d2 (b - 1)) ∧
      (∀ k, c ≤ k → k < hi → key d2 (b - 1) ≤ key d2 k) := by
  obtain ⟨d2, hd2⟩ : ∃ d2, TalkArr.Swap d lo (b - 1) = some d2 :=
    ⟨_, Swap_eq (by omega) (by omega)⟩
  have hk := Swap_key hd2
  have hkb : key d2 (b - 1) = key d lo := by rw [hk, if_pos rfl]
  refine ⟨d2, hd2, SwapsIn.single hd2 (le_refl _) (by omega) (by omega) (by omega), ?_, ?_, ?_⟩
  · intro k hk1 hk2
    rw [hkb, hk k, if_neg (by omega)]
    by_cases hkl : k = lo
    · rw [if_pos hkl]; exact Hle (b - 1) (by omega) (by omega)
    · rw [if_neg hkl]; exact Hle k (by omega) (by omega)
  · intro k hk1 hk2
    rw [hkb, hk k]
    by_cases hkl : k = b - 1
    · rw [if_pos hkl]
    · rw [if_neg hkl, if_neg (by omega)]; exact Heq k (by omega) hk2
  · intro k hk1 hk2
    rw [hkb, hk k, if_neg (by omega), if_neg (by omega)]
    exact Hge k hk1 hk2

theorem doPivot_spec (d : TalkArr) (lo hi : Nat) (hlen : hi ≤ d.length) (h12 : 12 < hi - lo) :
    ∃ d2 mlo mhi, doPivot d lo hi = some (d2, mlo, mhi) ∧ SwapsIn lo hi d d2 ∧
      lo ≤ mlo ∧ mlo < mhi ∧ mhi ≤ hi ∧
      (∀ k, lo ≤ k → k < mlo → key d2 k ≤ key d2 mlo) ∧
      (∀ k, mlo ≤ k → k < mhi → key d2 k = key d2 mlo) ∧
      (∀ k, mhi ≤ k → k < hi → key d2 mlo ≤ key d2 k) := by
  unfold doPivot
  simp only [Option.bind_eq_bind, Option.pure_def]
  -- Tukey's ninther
  obtain ⟨d0, hd0, hsw0⟩ : ∃ d0,
      (if hi - lo > 40 then
          (medianOfThree d lo (lo + (hi - lo) / 8) (lo + 2 * ((hi - lo) / 8))).bind fun data =>
            (medianOfThree data ((lo + hi) / 2) ((lo + hi) / 2 - (hi - lo) / 8)
                  ((lo + hi) / 2 + (hi - lo) / 8)).bind
              fun data => medianOfThree data (hi - 1) (hi - 1 - (hi - lo) / 8)
                (hi - 1 - 2 * ((hi - lo) / 8))
        else some d) = some d0 ∧ SwapsIn lo hi d d0 := by
    by_cases h40 : hi - lo > 40
    · rw [if_pos h40]
      obtain ⟨da, hda, hswa, _⟩ := medianOfThree_spec lo hi d lo (lo + (hi - lo) / 8)
        (lo + 2 * ((hi - lo) / 8)) hlen (by omega) (by omega) (by omega)
      have hlena := hswa.length_eq
      obtain ⟨db, hdb, hswb, _⟩ := medianOfThree_spec lo hi da ((lo + hi) / 2)
        ((lo + hi) / 2 - (hi - lo) / 8) ((lo + hi) / 2 + (hi - lo) / 8) (by omega)
        (by omega) (by omega) (by omega)
      have hlenb := hswb.length_eq
      obtain ⟨dc, hdc, hswc, _⟩ := medianOfThree_spec lo hi db (hi - 1) (hi - 1 - (hi - lo) / 8)
        (hi - 1 - 2 * ((hi - lo) / 8)) (by omega) (by omega) (by omega) (by omega)
      exact ⟨dc, by simp [hda, hdb, hdc], (hswa.trans hswb).trans hswc⟩
    · rw [if_neg h40]
      exact ⟨d, rfl, SwapsIn.refl _⟩
  rw [hd0]
  simp only [Option.some_bind]
  have hlen0 := hsw0.length_eq
  -- median of three
  obtain ⟨d1, hd1, hsw1, hmed⟩ := medianOfThree_spec lo hi d0 lo ((lo + hi) / 2) (hi - 1)
    (by omega) (by omega) (by omega) (by omega)
  have hlen1 := hsw1.length_eq
  have hlast1 : key d1 lo ≤ key d1 (hi - 1) := (hmed (by omega) (by omega) (by omega)).2
  rw [hd1]
  simp only [Option.some_bind]
  -- first scan
  obtain ⟨a, ha, ha1, ha2, ha3, _⟩ := doPivot_skipLess_spec d1 lo (hi - 1) (by omega) (by omega)
    (hi - 1 - (lo + 1) + 1) (lo + 1) (by omega) (by omega)
  have ha2' := ha2 (by omega)
  rw [ha]
  simp only [Option.some_bind]
  -- partition
  obtain ⟨d2, b, hd2, hb1, hb2, hsw2, hle2, hgt2⟩ := doPivot_partition_spec lo (lo + 1) (hi - 1)
    (hi - 1 - a + 1) d1 a (hi - 1) (by omega) ha2' (by omega) (by omega) (by omega)
    (fun k h1 h2 => le_of_lt (ha3 k h1 h2)) (fun k h1 h2 => by omega)
  have hlen2 := hsw2.length_eq
  have hkeep2 : ∀ k, k < a ∨ hi - 1 ≤ k → key d2 k = key d1 k := fun k hk => hsw2.key_out k hk
  rw [hd2]
  simp only [Option.some_bind]
  have hP2 : key d2 lo = key d1 lo := hkeep2 lo (by omega)
  -- the duplicate test
  obtain ⟨d3, b3, c3, fl, hst, hsw3, h3a, h3b, h3c, h3d, Hle3, Heq3, Hge3⟩ : ∃ d3 b3 c3 fl,
      (if (!decide (hi - b < 5) && decide (hi - b < (hi - lo) / 4)) = true then
          (doPivot_dups d2 lo ((lo + hi) / 2) hi b b).bind fun __discr =>
            some (__discr.1, __discr.2.1, __discr.2.2.1, decide (__discr.2.2.2 > 1))
        else some (d2, b, b, decide (hi - b < 5))) = some (d3, b3, c3, fl) ∧
      SwapsIn a hi d2 d3 ∧ a ≤ b3 ∧ b3 ≤ b ∧ b3 ≤ c3 ∧ c3 ≤ hi ∧
      (∀ k, lo < k → k < b3 → key d3 k ≤ key d3 lo) ∧
      (∀ k, b3 ≤ k → k < c3 → key d3 k = key d3 lo) ∧
      (∀ k, c3 ≤ k → k < hi → key d3 lo ≤ key d3 k) := by
    have Hge2 : ∀ k, b ≤ k → k < hi → key d2 lo ≤ key d2 k := by
      intro k hk1 hk2
      by_cases hk : k = hi - 1
      · rw [hk, hP2, hkeep2 (hi - 1) (by omega)]; exact hlast1
      · exact le_of_lt (hgt2 k hk1 (by omega))
    by_cases hcond : (!decide (hi - b < 5) && decide (hi - b < (hi - lo) / 4)) = true
    · rw [if_pos hcond]
      simp only [Bool.and_eq_true, Bool.not_eq_true', decide_eq_false_iff_not, decide_eq_true_eq]
        at hcond
      obtain ⟨d3, b3, c3, n, hd3, hsw3, h3a, h3b, h3c, h3d, Hle3, Heq3, Hge3⟩ :=
        doPivot_dups_spec d2 lo a ((lo + hi) / 2) hi b (by omega) (by omega) hb1 (by omega)
          hcond.2 rfl
          (fun k h1 h2 => by rw [hkeep2 k (by omega), hP2]; exact ha3 k (by omega) h2)
          (fun k h1 h2 => hle2 k (by omega) h2) hgt2
          (by rw [hP2, hkeep2 (hi - 1) (by omega)]; exact hlast1)
      exact ⟨d3, b3, c3, decide (n > 1), by simp [hd3], hsw3, h3a, h3b, h3c, h3d, Hle3, Heq3, Hge3⟩
    · rw [if_neg hcond]
      exact ⟨d2, b, b, decide (hi - b < 5), rfl, SwapsIn.refl _, hb1, le_refl _, le_refl _,
        by omega, fun k h1 h2 => hle2 k (by omega) h2, fun k h1 h2 => by omega, Hge2⟩
  rw [hst]
  simp only [Option.some_bind]
  have hlen3 := hsw3.length_eq
  -- the protection against duplicates
  obtain ⟨d4, b4, hst4, hsw4, h4a, h4b, Hle4, Heq4, Hge4⟩ : ∃ d4 b4,
      (if fl = true then doPivot_protect lo (b3 - a + 1) d3 a b3 else some (d3, b3)) =
        some (d4, b4) ∧
      SwapsIn a hi d3 d4 ∧ a ≤ b4 ∧ b4 ≤ c3 ∧
      (∀ k, lo < k → k < b4 → key d4 k ≤ key d4 lo) ∧
      (∀ k, b4 ≤ k → k < c3 → key d4 k = key d4 lo) ∧
      (∀ k, c3 ≤ k → k < hi → key d4 lo ≤ key d4 k) := by
    by_cases hfl : fl = true
    · rw [if_pos hfl]
      obtain ⟨d4, b4, hd4, h4a, h4b, hsw4, Hlt4, Heq4⟩ := doPivot_protect_spec lo (b3 - a + 1) d3
        a b3 (by omega) h3a (by omega) (by omega) (by omega)
        (fun k h1 h2 => Hle3 k (by omega) h2)
      have hsw4' : SwapsIn a b3 d3 d4 := hsw4
      have hP4 : key d4 lo = key d3 lo := hsw4'.key_out lo (by omega)
      refine ⟨d4, b4, hd4, hsw4.mono (le_refl _) (by omega), h4a, by omega, ?_, ?_, ?_⟩
      · intro k hk1 hk2
        by_cases hka : k < a
        · rw [hsw4'.key_out k (by omega), hP4]; exact Hle3 k hk1 (by omega)
        · exact le_of_lt (Hlt4 k (by omega) hk2)
      · intro k hk1 hk2
        by_cases hkb : k < b3
        · exact Heq4 k hk1 hkb
        · rw [hsw4'.key_out k (by omega), hP4]; exact Heq3 k (by omega) hk2
      · intro k hk1 hk2
        rw [hsw4'.key_out k (by omega), hP4]; exact Hge3 k hk1 hk2
    · rw [if_neg hfl]
      exact ⟨d3, b3, rfl, SwapsIn.refl _, h3a, h3c, Hle3, Heq3, Hge3⟩
  rw [hst4]
  simp only [Option.some_bind]
  have hlen4 := hsw4.length_eq
  obtain ⟨d5, hd5, hsw5, Hle5, Heq5, Hge5⟩ := doPivot_final_spec d4 lo b4 c3 hi (by omega)
    (by omega) h4b h3d Hle4 Heq4 Hge4
  refine ⟨d5, b4 - 1, c3, by simp [hd5], ?_, by omega, by omega, h3d, Hle5, Heq5, Hge5⟩
  exact ((((hsw0.trans hsw1).trans (hsw2.mono (by omega) (by omega))).trans
    (hsw3.mono (by omega) (le_refl _))).trans (hsw4.mono (by omega) (le_refl _))).trans hsw5

/-! ## `quickSort` and `Sort` -/

theorem quickSort_small_spec (d : TalkArr) (a b : Nat) (hlen : b ≤ d.length) :
    ∃ d2, quickSort_small d a b = some d2 ∧ SwapsIn a b d d2 ∧ SortedOn d2 a b := by
  unfold quickSort_small
  by_cases h1 : b - a > 1
  · rw [if_pos h1]
    obtain ⟨d1, hd1, hsw1⟩ := quickSort_shell_spec a b (b - a + 1) (a + 6) d hlen (le_refl _)
      (by omega) (by omega)
    have hlen1 := hsw1.length_eq
    obtain ⟨d2, hd2, hsw2, hs2⟩ := insertionSort_spec d1 a b (by omega)
    exact ⟨d2, by simp [hd1, hd2], hsw1.trans hsw2.swapsIn, hs2⟩
  · rw [if_neg h1]
    refine ⟨d, rfl, SwapsIn.refl _, ?_⟩
    intro i j hi hij hj
    rw [show i = j by omega]

/-- Two sorted ranges around a block of records equal to the pivot form one sorted range. -/
theorem SortedOn.join {d : TalkArr} {a mlo mhi b : Nat} (P : GoString)
    (hL : ∀ k, a ≤ k → k < mlo → key d k ≤ P)
    (hM : ∀ k, mlo ≤ k → k < mhi → key d k = P)
    (hR : ∀ k, mhi ≤ k → k < b → P ≤ key d k)
    (sL : SortedOn d a mlo) (sR : SortedOn d mhi b) : SortedOn d a b := by
  intro i j hi hij hj
  by_cases hi1 : i < mlo
  · by_cases hj1 : j < mlo
    · exact sL i j hi hij hj1
    · by_cases hj2 : j < mhi
      · rw [hM j (by omega) hj2]; exact hL i hi hi1
      · exact le_trans (hL i hi hi1) (hR j (by omega) hj)
  · by_cases hi2 : i < mhi
    · by_cases hj2 : j < mhi
      · rw [hM i (by omega) hi2, hM j (by omega) hj2]
      · rw [hM i (by omega) hi2]; exact hR j (by omega) hj
    · exact sR i j (by omega) hij hj

theorem quickSort_spec :
    ∀ (maxDepth : Nat) (d : TalkArr) (a b : Nat), a ≤ b → b ≤ d.length →
      ∃ d2, quickSort d a b maxDepth = some d2 ∧ SwapsIn a b d d2 ∧ SortedOn d2 a b := by
  intro maxDepth
  induction maxDepth with
  | zero =>
    intro d a b hab hlen
    unfold quickSort
    by_cases h12 : b - a > 12
    · rw [if_pos h12]; exact heapSort_spec d a b hab hlen
    · rw [if_neg h12]; exact quickSort_small_spec d a b hlen
  | succ n ih =>
    intro d a b hab hlen
    unfold quickSort
    by_cases h12 : b - a > 12
    · rw [if_pos h12]
      obtain ⟨d1, mlo, mhi, hd1, hsw1, hm1, hm2, hm3, hL, hM, hR⟩ :=
        doPivot_spec d a b hlen (by omega)
      have hlen1 := hsw1.length_eq
      by_cases hside : mlo - a < b - mhi
      · obtain ⟨d2, hd2, hsw2, hs2⟩ := ih d1 a mlo hm1 (by omega)
        have hlen2 := hsw2.length_eq
        obtain ⟨d3, hd3, hsw3, hs3⟩ := ih d2 mhi b hm3 (by omega)
        refine ⟨d3, by simp [hd1, hside, hd2, hd3],
          (hsw1.trans (hsw2.mono (le_refl _) (by omega))).trans (hsw3.mono (by omega) (le_refl _)),
          ?_⟩
        apply SortedOn.join (key d1 mlo) _ _ _ (hsw3.sortedOn_out hs2 (by omega)) hs3
        · intro k hk1 hk2
          rw [hsw3.key_out k (by omega)]
          exact hsw2.forall_key (fun s => s ≤ key d1 mlo) hL k hk1 hk2
        · intro k hk1 hk2
          rw [hsw3.key_out k (by omega), hsw2.key_out k (by omega)]
          exact hM k hk1 hk2
        · intro k hk1 hk2
          apply hsw3.forall_key (fun s => key d1 mlo ≤ s) _ k hk1 hk2
          intro k hk1 hk2
          rw [hsw2.key_out k (by omega)]
          exact hR k hk1 hk2
      · obtain ⟨d2, hd2, hsw2, hs2⟩ := ih d1 mhi b hm3 (by omega)
        have hlen2 := hsw2.length_eq
        obtain ⟨d3, hd3, hsw3, hs3⟩ := ih d2 a mlo hm1 (by omega)
        refine ⟨d3, by simp [hd1, hside, hd2, hd3],
          (hsw1.trans (hsw2.mono (by omega) (le_refl _))).trans (hsw3.mono (le_refl _) (by omega)),
          ?_⟩
        apply SortedOn.join (key d1 mlo) _ _ _ hs3 (hsw3.sortedOn_out hs2 (by omega))
        · intro k hk1 hk2
          apply hsw3.forall_key (fun s => s ≤ key d1 mlo) _ k hk1 hk2
          intro k hk1 hk2
          rw [hsw2.key_out k (by omega)]
          exact hL k hk1 hk2
        · intro k hk1 hk2
          rw [hsw3.key_out k (by omega), hsw2.key_out k (by omega)]
          exact hM k hk1 hk2
        · intro k hk1 hk2
          rw [hsw3.key_out k (by omega)]
          exact hsw2.forall_key (fun s => key d1 mlo ≤ s) hR k hk1 hk2
    · rw [if_neg h12]; exact quickSort_small_spec d a b hlen

/-- Go's `sort.Sort` on a `TalkArr` returns without a panic, reaches its result by calls of
`Swap` alone, and leaves the records in non-decreasing order of `Type`. -/
theorem Sort_spec (d : TalkArr) :
    ∃ d2, Sort_ d = some d2 ∧ SwapsIn 0 d.length d d2 ∧ SortedOn d2 0 d.length := by
  unfold Sort_ TalkArr.Len
  exact quickSort_spec _ d 0 d.length (Nat.zero_le _) (le_refl _)

/-! ## Stability of the insertion sort -/

theorem adjacent_swap_filter (p : Talk → Bool) :
    ∀ (l : List Talk) (j : Nat) (h : j + 1 < l.length) (h0 : j < l.length),
      ¬ (p l[j] = true ∧ p l[j + 1] = true) →
      ((l.set (j + 1) l[j]).set j l[j + 1]).filter p = l.filter p := by
  intro l
  induction l with
  | nil => intro j h; simp at h
  | cons x xs ih =>
    intro j h h0 hp
    cases j with
    | zero =>
      cases xs with
      | nil => simp at h
      | cons y ys =>
        simp only [List.getElem_cons_zero, List.getElem_cons_succ, List.set_cons_succ,
          List.set_cons_zero, zero_add] at hp ⊢
        by_cases hx : p x = true <;> by_cases hy : p y = true
        · exact absurd ⟨hx, hy⟩ hp
        · simp [List.filter_cons, hx, hy]
        · simp [List.filter_cons, hx, hy]
        · simp [List.filter_cons, hx, hy]
    | succ j =>
      simp only [List.getElem_cons_succ, List.set_cons_succ, List.filter_cons] at hp ⊢
      rw [ih j (by simpa using h) (by simpa using h0) hp]

theorem key_eq_getElem {d : TalkArr} {i : Nat} (h : i < d.length) : key d i = d[i].Typ := by
  simp [key, List.getElem?_eq_getElem h]

theorem AdjSwapsIn.filter_eq {lo hi : Nat} {d d2 : TalkArr} (h : AdjSwapsIn lo hi d d2)
    (T : GoString) :
    d2.filter (fun t => decide (t.Typ = T)) = d.filter (fun t => decide (t.Typ = T)) := by
  induction h with
  | refl => rfl
  | step j h1 h2 hlt hs _ ih =>
    rw [ih]
    obtain ⟨hi1, hj1, rfl⟩ := Swap_some_iff hs
    apply adjacent_swap_filter _ _ j hi1 hj1
    rw [key_eq_getElem hi1, key_eq_getElem hj1] at hlt
    intro hcon
    simp only [decide_eq_true_eq] at hcon
    rw [hcon.1, hcon.2] at hlt
    exact lt_irrefl _ hlt

theorem quickSort_shell_skip (b : Nat) (n i : Nat) (d : TalkArr) (hn : 0 < n) (hib : b ≤ i) :
    quickSort_shell b n i d = some d := by
  cases n with
  | zero => omega
  | succ n =>
    unfold quickSort_shell
    rw [if_neg (by omega)]
    rfl

/-- On at most 6 records `sort.Sort` is the insertion sort alone, which only exchanges
neighbours in strictly descending order. -/
theorem Sort_short (d : TalkArr) (h6 : d.length ≤ 6) :
    ∃ d2, Sort_ d = some d2 ∧ AdjSwapsIn 0 d.length d d2 := by
  have hsmall : quickSort d 0 d.length (maxDepth d.length) = quickSort_small d 0 d.length := by
    cases maxDepth d.length with
    | zero => unfold quickSort; rw [if_neg (by omega)]
    | succ n => unfold quickSort; rw [if_neg (by omega)]
  unfold Sort_ TalkArr.Len
  rw [hsmall]
  unfold quickSort_small
  by_cases h1 : d.length - 0 > 1
  · rw [if_pos h1, quickSort_shell_skip _ _ _ _ (by omega) (by omega)]
    obtain ⟨d2, hd2, hsw, _⟩ := insertionSort_spec d 0 d.length (le_refl _)
    exact ⟨d2, by simp [hd2], hsw⟩
  · rw [if_neg h1]
    exact ⟨d, rfl, AdjSwapsIn.refl _⟩

/-! ## The JSON codec -/

open json utf8

theorem toValidUTF8_loop_of_valid :
    ∀ (s : GoString) (k : Nat), ValidString_loop k s = true → toValidUTF8_loop k s = s := by
  intro s
  induction s with
  | nil => intro k _; cases k <;> rfl
  | cons b rest ih =>
    intro k h
    cases k with
    | zero =>
      simp only [ValidString_loop, Bool.and_eq_true] at h
      simp only [toValidUTF8_loop, h.1, if_true]
      rw [ih _ h.2]
    | succ k =>
      simp only [ValidString_loop] at h
      simp only [toValidUTF8_loop]
      rw [ih _ h]

theorem toValidUTF8_of_valid (s : GoString) (h : ValidString s = true) : toValidUTF8 s = s :=
  toValidUTF8_loop_of_valid s 0 h

theorem DecodeRuneInString_copy (s0 : Nat) (rest : GoString)
    (h : (DecodeRuneInString (s0 :: rest)).1 = true) :
    DecodeRuneInString (s0 :: toValidUTF8_loop ((DecodeRuneInString (s0 :: rest)).2 - 1) rest) =
      DecodeRuneInString (s0 :: rest) := by
  unfold DecodeRuneInString at h ⊢
  by_cases h0 : s0 < 0x80
  · simp only [h0, if_true]
  · simp only [h0, if_false] at h ⊢
    cases hf : first s0 with
    | none => simp [hf] at h
    | some p =>
      obtain ⟨sz, lo, hi⟩ := p
      simp only [hf] at h ⊢
      cases rest with
      | nil => simp at h
      | cons s1 r1 =>
        simp only at h ⊢
        by_cases c1 : (decide (s1 < lo) || decide (hi < s1)) = true
        · simp [c1] at h
        · simp only [c1] at h ⊢
          by_cases z2 : sz ≤ 2
          · simp [z2, toValidUTF8_loop, c1]
          · simp only [z2, if_false] at h ⊢
            cases r1 with
            | nil => simp at h
            | cons s2 r2 =>
              simp only at h ⊢
              by_cases c2 : (decide (s2 < 0x80) || decide (0xBF < s2)) = true
              · simp [c2] at h
              · simp only [c2] at h ⊢
                by_cases z3 : sz ≤ 3
                · simp [z3, toValidUTF8_loop, c1, c2, z2]
                · simp only [z3, if_false] at h ⊢
                  cases r2 with
                  | nil => simp at h
                  | cons s3 r3 =>
                    simp only at h ⊢
                    by_cases c3 : (decide (s3 < 0x80) || decide (0xBF < s3)) = true
                    · simp [c3] at h
                    · simp [c3, toValidUTF8_loop, c1, c2, z2, z3]

theorem valid_toValidUTF8_loop :
    ∀ (s : GoString) (k : Nat), ValidString_loop k (toValidUTF8_loop k s) = true := by
  intro s
  induction s with
  | nil => intro k; cases k <;> rfl
  | cons b rest ih =>
    intro k
    cases k with
    | zero =>
      simp only [toValidUTF8_loop]
      by_cases hv : (DecodeRuneInString (b :: rest)).1 = true
      · simp only [hv, if_true]
        simp only [ValidString_loop, Bool.and_eq_true]
        rw [DecodeRuneInString_copy b rest hv]
        exact ⟨hv, ih _⟩
      · simp only [hv]
        have h3 : ∀ r : GoString, DecodeRuneInString (0xEF :: 0xBF :: 0xBD :: r) = (true, 3) := by
          intro r
          simp [DecodeRuneInString, first]
        simp only [ValidString_loop, h3, Bool.true_and, if_false]
        exact ih 0
    | succ k =>
      simp only [toValidUTF8_loop, ValidString_loop]
      exact ih k

theorem valid_toValidUTF8 (s : GoString) : ValidString (toValidUTF8 s) = true :=
  valid_toValidUTF8_loop s 0

theorem toValidUTF8_idem (s : GoString) : toValidUTF8 (toValidUTF8 s) = toValidUTF8 s :=
  toValidUTF8_of_valid _ (valid_toValidUTF8 s)

theorem decodeTalk_Encode (t : Talk) (h : RoundTrips t) : decodeTalk (Encode t) = some t := by
  obtain ⟨hid, hn, ht, hd⟩ := h
  have f1 : fieldOf (toValidUTF8 (lit "id")) = some .ID := by decide
  have f2 : fieldOf (toValidUTF8 (lit "name")) = some .Name := by decide
  have f3 : fieldOf (toValidUTF8 (lit "type")) = some .Typ := by decide
  have f4 : fieldOf (toValidUTF8 (lit "desc")) = some .Desc := by decide
  have f5 : fieldOf (toValidUTF8 (lit "hidden")) = some .Hidden := by decide
  simp only [Encode, decodeTalk, decodeMembers, f1, f2, f3, f4, f5, setField, hid, and_self,
    if_true, toValidUTF8_idem, toValidUTF8_of_valid _ hn, toValidUTF8_of_valid _ ht,
    toValidUTF8_of_valid _ hd, Talk.zero]

theorem decodeElems_Encode (ts : TalkArr) (h : ∀ t ∈ ts, RoundTrips t) :
    decodeElems (ts.map Encode) = some ts := by
  induction ts with
  | nil => rfl
  | cons t rest ih =>
    simp only [List.map_cons, decodeElems, decodeTalk_Encode t (h t (List.mem_cons_self _ _)),
      ih (fun x hx => h x (List.mem_cons_of_mem _ hx))]

theorem setField_roundTrips {t t2 : Talk} {f : Field} {v : JSON} (h : RoundTrips t)
    (hs : setField t f v = some t2) : RoundTrips t2 := by
  unfold setField at hs
  cases v with
  | null => simp at hs; rw [← hs]; exact h
  | bool b => cases f <;> simp at hs <;> (rw [← hs]; exact h)
  | number n =>
    cases f <;> simp at hs
    obtain ⟨hr, rfl⟩ := hs
    exact ⟨hr, h.2⟩
  | fraction => cases f <;> simp at hs
  | string s =>
    cases f <;> simp at hs
    · rw [← hs]; exact ⟨h.1, valid_toValidUTF8 s, h.2.2.1, h.2.2.2⟩
    · rw [← hs]; exact ⟨h.1, h.2.1, valid_toValidUTF8 s, h.2.2.2⟩
    · rw [← hs]; exact ⟨h.1, h.2.1, h.2.2.1, valid_toValidUTF8 s⟩
  | array l => cases f <;> simp at hs
  | object l => cases f <;> simp at hs

theorem decodeMembers_roundTrips :
    ∀ (ms : List (GoString × JSON)) (t t2 : Talk), RoundTrips t →
      decodeMembers t ms = some t2 → RoundTrips t2 := by
  intro ms
  induction ms with
  | nil => intro t t2 h hd; simp [decodeMembers] at hd; rw [← hd]; exact h
  | cons m rest ih =>
    intro t t2 h hd
    obtain ⟨k, v⟩ := m
    simp only [decodeMembers] at hd
    cases hf : fieldOf (toValidUTF8 k) with
    | none => rw [hf] at hd; exact ih t t2 h hd
    | some f =>
      rw [hf] at hd
      simp only at hd
      cases hs : setField t f v with
      | none => rw [hs] at hd; simp at hd
      | some t1 =>
        rw [hs] at hd
        exact ih t1 t2 (setField_roundTrips h hs) hd

theorem roundTrips_zero : RoundTrips Talk.zero := by
  refine ⟨⟨by decide, by decide⟩, rfl, rfl, rfl⟩

theorem decodeTalk_roundTrips {v : JSON} {t : Talk} (h : decodeTalk v = some t) :
    RoundTrips t := by
  cases v with
  | object ms => exact decodeMembers_roundTrips ms _ _ roundTrips_zero h
  | null => simp [decodeTalk] at h; rw [← h]; exact roundTrips_zero
  | bool b => simp [decodeTalk] at h
  | number n => simp [decodeTalk] at h
  | fraction => simp [decodeTalk] at h
  | string s => simp [decodeTalk] at h
  | array l => simp [decodeTalk] at h

theorem decodeElems_roundTrips :
    ∀ (vs : List JSON) (ts : TalkArr), decodeElems vs = some ts → ∀ t ∈ ts, RoundTrips t := by
  intro vs
  induction vs with
  | nil => intro ts h t ht; simp [decodeElems] at h; rw [h] at ht; simp at ht
  | cons v rest ih =>
    intro ts h t ht
    simp only [decodeElems] at h
    cases hv : decodeTalk v with
    | none => rw [hv] at h; simp at h
    | some t1 =>
      rw [hv] at h
      cases hr : decodeElems rest with
      | none => rw [hr] at h; simp at h
      | some ts1 =>
        rw [hr] at h
        simp only [Option.some.injEq] at h
        rw [← h] at ht
        rcases List.mem_cons.mp ht with rfl | hm
        · exact decodeTalk_roundTrips hv
        · exact ih ts1 hr t hm

theorem formatResponse_roundTrips {body : Option JSON} {ts : TalkArr}
    (h : formatResponse body = some ts) : ∀ t ∈ ts, RoundTrips t := by
  unfold formatResponse at h
  cases body with
  | none => simp [Decode] at h
  | some v =>
    cases v with
    | array l => exact decodeElems_roundTrips l ts h
    | null => simp [Decode] at h; rw [h]; simp
    | bool b => simp [Decode] at h
    | number n => simp [Decode] at h
    | fraction => simp [Decode] at h
    | string s => simp [Decode] at h
    | object l => simp [Decode] at h

/-! ## The byte order of strings, and a short unstable run -/

/-- The order `<` of `GoString` that `Less` uses is the lexicographic order on bytes: the empty
string is below every other string, and two non-empty strings compare by their first bytes,
then by the rest. -/
theorem GoString_lt_iff (a b : Nat) (s t : GoString) :
    (¬ s < ([] : GoString)) ∧ (([] : GoString) < b :: t) ∧
    ((a :: s : GoString) < b :: t ↔ a < b ∨ (a = b ∧ s < t)) := by
  refine ⟨?_, List.Lex.nil, ?_⟩
  · intro h
    cases h
  · constructor
    · intro h
      cases h with
      | cons h => exact Or.inr ⟨rfl, h⟩
      | rel h => exact Or.inl h
    · rintro (h | ⟨rfl, h⟩)
      · exact List.Lex.rel h
      · exact List.Lex.cons h

/-- Seven records already show that `sort.Sort` is not stable: the ShellSort pass exchanges the
records at indices 0 and 6, which carries the first record of type `b` behind the second. -/
theorem Sort_unstable_at_seven :
    Sort_ [⟨1, [], lit "b", [], false⟩, ⟨2, [], lit "b", [], false⟩, ⟨3, [], lit "c", [], false⟩,
        ⟨4, [], lit "c", [], false⟩, ⟨5, [], lit "c", [], false⟩, ⟨6, [], lit "c", [], false⟩,
        ⟨7, [], lit "a", [], false⟩] =
      some [⟨7, [], lit "a", [], false⟩, ⟨2, [], lit "b", [], false⟩, ⟨1, [], lit "b", [], false⟩,
        ⟨3, [], lit "c", [], false⟩, ⟨4, [], lit "c", [], false⟩, ⟨5, [], lit "c", [], false⟩,
        ⟨6, [], lit "c", [], false⟩] := by
  decide

/-- On at most 6 records the embedded `sort.Sort` runs the insertion sort alone, so the sorted
list keeps, for every type `T`, the records of type `T` in the order of the input. -/
theorem getTalks_select_stable_short (ts : TalkArr) (h6 : ts.length ≤ 6) :
    ∃ final : TalkArr, getTalks_select ts [] = some final ∧
      ∀ T : GoString, final.filter (fun t => decide (t.Typ = T)) =
        ts.filter (fun t => decide (t.Typ = T)) := by
  obtain ⟨final, hs, hadj⟩ := Sort_short ts h6
  exact ⟨final, by simp [getTalks_select, hs], fun T => hadj.filter_eq T⟩

/-! ## The list handler and the submit handler -/

theorem filterTalksByType_loop_eq (ty : GoString) :
    ∀ (l ret : TalkArr), filterTalksByType_loop ty l ret =
      ret ++ l.filter (fun t => decide (t.Typ = ty)) := by
  intro l
  induction l with
  | nil => intro ret; simp [filterTalksByType_loop]
  | cons t rest ih =>
    intro ret
    unfold filterTalksByType_loop
    by_cases h : t.Typ = ty
    · rw [if_pos h, ih]; simp [List.filter_cons, h]
    · rw [if_neg h, ih]; simp [List.filter_cons, h]

theorem filterTalksByType_eq (l : TalkArr) (ty : GoString) :
    filterTalksByType l ty = l.filter (fun t => decide (t.Typ = ty)) := by
  simp [filterTalksByType, filterTalksByType_loop_eq]

theorem foldl_append_singleton (f : Talk → GoString) :
    ∀ (l : TalkArr) (acc : List GoString),
      l.foldl (fun out v => out ++ [f v]) acc = acc ++ l.map f := by
  intro l
  induction l with
  | nil => intro acc; simp
  | cons t rest ih => intro acc; simp [List.foldl_cons, ih]

theorem getTalks_print_eq (l : TalkArr) :
    getTalks_print l = getTalks_summary l.length :: l.map getTalks_line := by
  simp [getTalks_print, foldl_append_singleton, TalkArr.Len]

theorem getTalks_of_select {body : Option JSON} {ts final : TalkArr} {T : GoString}
    (hdec : formatResponse body = some ts) (hsel : getTalks_select ts T = some final) :
    getTalks (.resp body) T =
      ⟨getTalks_summary final.length :: final.map getTalks_line,
        [Request.get (lit "http://talks.cosi.clarkson.edu/api/talks/visible")], .returned⟩ := by
  simp [getTalks, hdec, hsel, getTalks_print_eq]

theorem getTalks_select_filter (ts : TalkArr) {T : GoString} (hT : T ≠ []) :
    getTalks_select ts T = some (ts.filter (fun t => decide (t.Typ = T))) := by
  unfold getTalks_select
  rw [if_pos (by simpa using hT), filterTalksByType_eq]

theorem SortedOn.pairwise {d : TalkArr} (h : SortedOn d 0 d.length) :
    List.Pairwise (fun x y => x.Typ ≤ y.Typ) d := by
  rw [List.pairwise_iff_getElem]
  intro i j hi hj hij
  have := h i j (Nat.zero_le _) (le_of_lt hij) hj
  rwa [key_eq_getElem hi, key_eq_getElem hj] at this

theorem getTalks_select_sort (ts : TalkArr) :
    ∃ final : TalkArr, getTalks_select ts [] = some final ∧ SwapsIn 0 ts.length ts final ∧
      List.Pairwise (fun x y => x.Typ ≤ y.Typ) final := by
  obtain ⟨d2, h1, h2, h3⟩ := Sort_spec ts
  refine ⟨d2, by simp [getTalks_select, h1], h2, ?_⟩
  rw [← h2.length_eq] at h3
  exact h3.pairwise

/-- A list sorted by `Type` is, for every type `T`, the records below `T`, then the records of
type `T`, then the records above `T`. -/
theorem sorted_blocks (T : GoString) :
    ∀ l : TalkArr, List.Pairwise (fun x y => x.Typ ≤ y.Typ) l →
      l = l.filter (fun t => decide (t.Typ < T)) ++ l.filter (fun t => decide (t.Typ = T)) ++
        l.filter (fun t => decide (T < t.Typ)) := by
  intro l
  induction l with
  | nil => intro _; rfl
  | cons x xs ih =>
    intro hp
    rw [List.pairwise_cons] at hp
    obtain ⟨hx, hxs⟩ := hp
    have ih' := ih hxs
    rcases lt_trichotomy x.Typ T with h | h | h
    · have h1 : ¬ x.Typ = T := ne_of_lt h
      have h2 : ¬ T < x.Typ := not_lt.mpr (le_of_lt h)
      simp only [List.filter_cons, h, h1, h2, decide_True, decide_False, if_true, if_false,
        Bool.false_eq_true, List.cons_append]
      exact congrArg (fun r => x :: r) ih'
    · subst h
      have hnil : xs.filter (fun t => decide (t.Typ < x.Typ)) = [] := by
        rw [List.filter_eq_nil_iff]
        intro t ht
        simpa using hx t ht
      rw [hnil, List.nil_append] at ih'
      simp only [List.filter_cons, lt_irrefl, decide_True, decide_False, if_true, if_false,
        Bool.false_eq_true, hnil, List.nil_append, List.cons_append]
      exact congrArg (fun r => x :: r) ih'
    · have h1 : ¬ x.Typ < T := not_lt.mpr (le_of_lt h)
      have h2 : ¬ x.Typ = T := ne_of_gt h
      have hnil1 : xs.filter (fun t => decide (t.Typ < T)) = [] := by
        rw [List.filter_eq_nil_iff]
        intro t ht
        have := hx t ht
        simpa using le_trans (le_of_lt h) this
      have hnil2 : xs.filter (fun t => decide (t.Typ = T)) = [] := by
        rw [List.filter_eq_nil_iff]
        intro t ht
        have := hx t ht
        have hlt : T < t.Typ := lt_of_lt_of_le h this
        simpa using ne_of_gt hlt
      simp only [List.filter_cons, h, h1, h2, decide_True, decide_False, if_true, if_false,
        Bool.false_eq_true, hnil1, hnil2, List.nil_append]
      rw [hnil1, hnil2, List.nil_append, List.nil_append] at ih'
      exact congrArg (fun r => x :: r) ih'

/-- Claim C1: with a non-empty type filter `T`, the list the list handler emits is the
server's list filtered by `type == T`: every record of type `T` is kept, no other record is,
and the kept records keep the server's order and all their fields.  `filterTalksByType`
returns that list and `getTalks` prints its length and one line for each of its records. -/
theorem getTalks_filter_exact (body : Option JSON) (ts : TalkArr) (T : GoString)
    (hdec : formatResponse body = some ts) (hT : T ≠ []) :
    filterTalksByType ts T = ts.filter (fun t => decide (t.Typ = T)) ∧
    getTalks_select ts T = some (ts.filter (fun t => decide (t.Typ = T))) ∧
    (getTalks (.resp body) T).stdout =
      getTalks_summary (ts.filter (fun t => decide (t.Typ = T))).length ::
        (ts.filter (fun t => decide (t.Typ = T))).map getTalks_line := by
  refine ⟨filterTalksByType_eq ts T, getTalks_select_filter ts hT, ?_⟩
  rw [getTalks_of_select hdec (getTalks_select_filter ts hT)]

theorem getTalks_filter_exact_witness :
    formatResponse scenarioBody = some scenarioTalks ∧ lit "z" ≠ [] ∧
    filterTalksByType scenarioTalks (lit "z") =
      scenarioTalks.filter (fun t => decide (t.Typ = lit "z")) ∧
    getTalks_select scenarioTalks (lit "z") =
      some (scenarioTalks.filter (fun t => decide (t.Typ = lit "z"))) ∧
    (getTalks (.resp scenarioBody) (lit "z")).stdout =
      getTalks_summary (scenarioTalks.filter (fun t => decide (t.Typ = lit "z"))).length ::
        (scenarioTalks.filter (fun t => decide (t.Typ = lit "z"))).map getTalks_line :=
  ⟨by decide, by decide,
    getTalks_filter_exact scenarioBody scenarioTalks (lit "z") (by decide) (by decide)⟩

/-- Claim C2: without a type filter, `getTalks` sorts the decoded list into a list `final`,
returns after printing the summary and one line per record of `final` in order, and the `Type`
fields of `final` are in non-decreasing byte order: of any two adjacent printed records the
later one's type is not smaller than the earlier one's. -/
theorem getTalks_sorted_without_filter (body : Option JSON) (ts : TalkArr)
    (hdec : formatResponse body = some ts) :
    ∃ final : TalkArr, getTalks_select ts [] = some final ∧
      getTalks (.resp body) [] =
        ⟨getTalks_summary final.length :: final.map getTalks_line,
          [Request.get (lit "http://talks.cosi.clarkson.edu/api/talks/visible")], .returned⟩ ∧
      List.Chain' (fun x y => ¬ y.Typ < x.Typ) final := by
  obtain ⟨final, hsel, _, hp⟩ := getTalks_select_sort ts
  refine ⟨final, hsel, getTalks_of_select hdec hsel, ?_⟩
  exact (hp.imp (fun h => not_lt.mpr h)).chain'

theorem getTalks_sorted_without_filter_witness :
    formatResponse scenarioBody = some scenarioTalks ∧
    ∃ final : TalkArr, getTalks_select scenarioTalks [] = some final ∧
      getTalks (.resp scenarioBody) [] =
        ⟨getTalks_summary final.length :: final.map getTalks_line,
          [Request.get (lit "http://talks.cosi.clarkson.edu/api/talks/visible")], .returned⟩ ∧
      List.Chain' (fun x y => ¬ y.Typ < x.Typ) final :=
  ⟨by decide, getTalks_sorted_without_filter scenarioBody scenarioTalks (by decide)⟩

/-- Claim C3: if one of the three submit inputs is the empty string, `postTalk` prints the line
`Error: One of the three fields is null. Exiting...`, ends by `os.Exit(-1)`, a non-zero exit
status, and issues no HTTP request; if all three are non-empty it prints nothing, so not that
message, and issues exactly one request, a POST. -/
theorem postTalk_validates (name typ desc : GoString) (post : HttpResult) :
    ((name = [] ∨ typ = [] ∨ desc = []) →
      postTalk name typ desc post =
        ⟨[lit "Error: One of the three fields is null. Exiting...\n"], [], .exit (-1)⟩ ∧
      (postTalk name typ desc post).status.exitStatus ≠ 0) ∧
    ((name ≠ [] ∧ typ ≠ [] ∧ desc ≠ []) →
      (postTalk name typ desc post).stdout = [] ∧
      ∃ body, (postTalk name typ desc post).requests =
        [Request.post (lit "http://talks.cosi.clarkson.edu/api/postTalk")
          (lit "application/json; charset=utf-8") body]) := by
  constructor
  · intro h
    have hc : (decide (name.length = 0) || decide (typ.length = 0) ||
        decide (desc.length = 0)) = true := by
      rcases h with h | h | h <;> simp [h]
    have e : postTalk name typ desc post =
        ⟨[lit "Error: One of the three fields is null. Exiting...\n"], [], .exit (-1)⟩ := by
      unfold postTalk
      rw [if_pos hc]
    rw [e]
    exact ⟨rfl, by decide⟩
  · intro h
    obtain ⟨h1, h2, h3⟩ := h
    have hc : ¬ (decide (name.length = 0) || decide (typ.length = 0) ||
        decide (desc.length = 0)) = true := by
      simp [h1, h2, h3]
    unfold postTalk
    rw [if_neg hc]
    cases post <;> exact ⟨rfl, _, rfl⟩

theorem postTalk_validates_witness :
    (postTalk (lit "Alice") (lit "demo") [] .err =
        ⟨[lit "Error: One of the three fields is null. Exiting...\n"], [], .exit (-1)⟩ ∧
      (postTalk (lit "Alice") (lit "demo") [] .err).status.exitStatus ≠ 0) ∧
    ((postTalk (lit "Alice") (lit "demo") (lit "hello") (.resp none)).stdout = [] ∧
      ∃ body, (postTalk (lit "Alice") (lit "demo") (lit "hello") (.resp none)).requests =
        [Request.post (lit "http://talks.cosi.clarkson.edu/api/postTalk")
          (lit "application/json; charset=utf-8") body]) :=
  ⟨(postTalk_validates (lit "Alice") (lit "demo") [] .err).1 (Or.inr (Or.inr rfl)),
    (postTalk_validates (lit "Alice") (lit "demo") (lit "hello") (.resp none)).2
      ⟨by decide, by decide, by decide⟩⟩

/-- Claim C4: for non-empty submit inputs the one request of `postTalk` is a POST whose body is
the encoding of the `Talk` with the three inputs as `name`, `type` and `desc`, `id` 0 and
`hidden` false; and whatever the inputs, every request `postTalk` issues carries the encoding
of a `Talk` with `id` 0 and `hidden` false, written as the members `"id": 0` and
`"hidden": false`. -/
theorem postTalk_body (name typ desc : GoString) (post : HttpResult) :
    ((name ≠ [] ∧ typ ≠ [] ∧ desc ≠ []) →
      (postTalk name typ desc post).requests =
        [Request.post (lit "http://talks.cosi.clarkson.edu/api/postTalk")
          (lit "application/json; charset=utf-8")
          (json.Encode ⟨0, name, typ, desc, false⟩)]) ∧
    (∀ r ∈ (postTalk name typ desc post).requests, ∃ t : Talk,
      t.ID = 0 ∧ t.Hidden = false ∧ t.Name = name ∧ t.Typ = typ ∧ t.Desc = desc ∧
      r = Request.post (lit "http://talks.cosi.clarkson.edu/api/postTalk")
        (lit "application/json; charset=utf-8") (json.Encode t) ∧
      json.Encode t = .object [(lit "id", .number 0),
        (lit "name", .string (toValidUTF8 name)), (lit "type", .string (toValidUTF8 typ)),
        (lit "desc", .string (toValidUTF8 desc)), (lit "hidden", .bool false)]) := by
  by_cases hc : (decide (name.length = 0) || decide (typ.length = 0) ||
      decide (desc.length = 0)) = true
  · have e : postTalk name typ desc post =
        ⟨[lit "Error: One of the three fields is null. Exiting...\n"], [], .exit (-1)⟩ := by
      unfold postTalk
      rw [if_pos hc]
    rw [e]
    constructor
    · intro h
      obtain ⟨h1, h2, h3⟩ := h
      simp [h1, h2, h3] at hc
    · intro r hr
      simp at hr
  · have e : (postTalk name typ desc post).requests =
        [Request.post (lit "http://talks.cosi.clarkson.edu/api/postTalk")
          (lit "application/json; charset=utf-8")
          (json.Encode ⟨0, name, typ, desc, false⟩)] := by
      unfold postTalk
      rw [if_neg hc]
      cases post <;> rfl
    rw [e]
    refine ⟨fun _ => rfl, ?_⟩
    intro r hr
    rw [List.mem_singleton] at hr
    exact ⟨⟨0, name, typ, desc, false⟩, rfl, rfl, rfl, rfl, rfl, hr, rfl⟩

theorem postTalk_body_witness :
    (postTalk (lit "Alice") (lit "demo") (lit "hello") (.resp none)).requests =
      [Request.post (lit "http://talks.cosi.clarkson.edu/api/postTalk")
        (lit "application/json; charset=utf-8")
        (json.Encode ⟨0, lit "Alice", lit "demo", lit "hello", false⟩)] :=
  (postTalk_body (lit "Alice") (lit "demo") (lit "hello") (.resp none)).1
    ⟨by decide, by decide, by decide⟩

/-- Claim C5: for every decoded list and every type filter, `getTalks` returns after writing
the summary line `There are currently <N> talks scheduled` and then exactly one line
`[<type>]: <desc> by <name>` per record of the final (filtered or sorted) list, in that list's
order, each ended by a newline, `N` being the length of the final list. -/
theorem getTalks_output (body : Option JSON) (ts : TalkArr) (T : GoString)
    (hdec : formatResponse body = some ts) :
    ∃ final : TalkArr, getTalks_select ts T = some final ∧
      (getTalks (.resp body) T).status = .returned ∧
      (getTalks (.resp body) T).stdout =
        (lit "There are currently " ++ lit (toString final.length) ++
            lit " talks scheduled\n") ::
          final.map (fun v =>
            lit "[" ++ v.Typ ++ lit "]: " ++ v.Desc ++ lit " by " ++ v.Name ++ lit "\n") ∧
      (getTalks (.resp body) T).stdout.length = final.length + 1 := by
  have key : ∀ final, getTalks_select ts T = some final →
      ∃ final : TalkArr, getTalks_select ts T = some final ∧
      (getTalks (.resp body) T).status = .returned ∧
      (getTalks (.resp body) T).stdout =
        (lit "There are currently " ++ lit (toString final.length) ++
            lit " talks scheduled\n") ::
          final.map (fun v =>
            lit "[" ++ v.Typ ++ lit "]: " ++ v.Desc ++ lit " by " ++ v.Name ++ lit "\n") ∧
      (getTalks (.resp body) T).stdout.length = final.length + 1 := by
    intro final hsel
    refine ⟨final, hsel, ?_, ?_, ?_⟩
    · rw [getTalks_of_select hdec hsel]
    · rw [getTalks_of_select hdec hsel]
      rfl
    · rw [getTalks_of_select hdec hsel]
      simp
  by_cases hT : T = []
  · subst hT
    obtain ⟨final, hsel, _, _⟩ := getTalks_select_sort ts
    exact key final hsel
  · exact key _ (getTalks_select_filter ts hT)

theorem getTalks_output_witness :
    formatResponse scenarioBody = some scenarioTalks ∧
    ∃ final : TalkArr, getTalks_select scenarioTalks (lit "z") = some final ∧
      (getTalks (.resp scenarioBody) (lit "z")).status = .returned ∧
      (getTalks (.resp scenarioBody) (lit "z")).stdout =
        (lit "There are currently " ++ lit (toString final.length) ++
            lit " talks scheduled\n") ::
          final.map (fun v =>
            lit "[" ++ v.Typ ++ lit "]: " ++ v.Desc ++ lit " by " ++ v.Name ++ lit "\n") ∧
      (getTalks (.resp scenarioBody) (lit "z")).stdout.length = final.length + 1 :=
  ⟨by decide, getTalks_output scenarioBody scenarioTalks (lit "z") (by decide)⟩

/-- Claim C6, counterexample: the server returns 13 talks, the talk of type `b` by `P1`
before the talk of type `b` by `P2`, then eleven talks of type `a`; listed without a type
filter, `getTalks` prints the talk by `P2` before the talk by `P1`. -/
theorem getTalks_unstable_on_tiedTalks :
    formatResponse tiedBody = some tiedTalks ∧
    ∃ final : TalkArr, getTalks_select tiedTalks [] = some final ∧
      (getTalks (.resp tiedBody) []).stdout =
        getTalks_summary final.length :: final.map getTalks_line ∧
      tiedTalks.filter (fun t => decide (t.Typ = lit "b")) =
        [⟨1, lit "P1", lit "b", lit "d1", false⟩, ⟨2, lit "P2", lit "b", lit "d2", false⟩] ∧
      final.filter (fun t => decide (t.Typ = lit "b")) =
        [⟨2, lit "P2", lit "b", lit "d2", false⟩, ⟨1, lit "P1", lit "b", lit "d1", false⟩] ∧
      (final.filter (fun t => decide (t.Typ = lit "b"))).map getTalks_line =
        [lit "[b]: d2 by P2\n", lit "[b]: d1 by P1\n"] ∧
      final.filter (fun t => decide (t.Typ = lit "b")) ≠
        tiedTalks.filter (fun t => decide (t.Typ = lit "b")) := by
  refine ⟨by decide, ?_⟩
  refine ⟨[⟨13, lit "P13", lit "a", lit "d13", false⟩, ⟨12, lit "P12", lit "a", lit "d12", false⟩,
    ⟨3, lit "P3", lit "a", lit "d3", false⟩, ⟨4, lit "P4", lit "a", lit "d4", false⟩,
    ⟨5, lit "P5", lit "a", lit "d5", false⟩, ⟨6, lit "P6", lit "a", lit "d6", false⟩,
    ⟨7, lit "P7", lit "a", lit "d7", false⟩, ⟨8, lit "P8", lit "a", lit "d8", false⟩,
    ⟨9, lit "P9", lit "a", lit "d9", false⟩, ⟨10, lit "P10", lit "a", lit "d10", false⟩,
    ⟨11, lit "P11", lit "a", lit "d11", false⟩, ⟨2, lit "P2", lit "b", lit "d2", false⟩,
    ⟨1, lit "P1", lit "b", lit "d1", false⟩], by decide, by decide, by decide, by decide,
    by decide, by decide⟩

/-- Claim C6, amended: for every decoded list of talks listed without a type filter, the
records that share a type `T` are printed as one block, after every record of a smaller type
and before every record of a greater type, and the block consists of exactly the server's
records of type `T`, each once and unaltered (a permutation of them); the order inside the
block need not be the server's. -/
theorem getTalks_keeps_categories (body : Option JSON) (ts : TalkArr)
    (hdec : formatResponse body = some ts) :
    ∃ final : TalkArr, getTalks_select ts [] = some final ∧
      getTalks (.resp body) [] =
        ⟨getTalks_summary final.length :: final.map getTalks_line,
          [Request.get (lit "http://talks.cosi.clarkson.edu/api/talks/visible")], .returned⟩ ∧
      ∀ T : GoString,
        (final.filter (fun t => decide (t.Typ = T))).Perm
          (ts.filter (fun t => decide (t.Typ = T))) ∧
        ∃ before after : TalkArr,
          final = before ++ final.filter (fun t => decide (t.Typ = T)) ++ after ∧
          (∀ t ∈ before, t.Typ < T) ∧ (∀ t ∈ after, T < t.Typ) := by
  obtain ⟨final, hsel, hsw, hp⟩ := getTalks_select_sort ts
  refine ⟨final, hsel, getTalks_of_select hdec hsel, ?_⟩
  intro T
  refine ⟨hsw.perm.filter _, final.filter (fun t => decide (t.Typ < T)),
    final.filter (fun t => decide (T < t.Typ)), sorted_blocks T final hp, ?_, ?_⟩
  · intro t ht
    simpa using (List.mem_filter.mp ht).2
  · intro t ht
    simpa using (List.mem_filter.mp ht).2

theorem getTalks_keeps_categories_witness :
    formatResponse tiedBody = some tiedTalks ∧
    ∃ final : TalkArr, getTalks_select tiedTalks [] = some final ∧
      getTalks (.resp tiedBody) [] =
        ⟨getTalks_summary final.length :: final.map getTalks_line,
          [Request.get (lit "http://talks.cosi.clarkson.edu/api/talks/visible")], .returned⟩ ∧
      ∀ T : GoString,
        (final.filter (fun t => decide (t.Typ = T))).Perm
          (tiedTalks.filter (fun t => decide (t.Typ = T))) ∧
        ∃ before after : TalkArr,
          final = before ++ final.filter (fun t => decide (t.Typ = T)) ++ after ∧
          (∀ t ∈ before, t.Typ < T) ∧ (∀ t ∈ after, T < t.Typ) :=
  ⟨by decide, getTalks_keeps_categories tiedBody tiedTalks (by decide)⟩

/-- Claim C7, counterexample: with the empty string as the value of `--type`, `getTalks` prints
the line `[a]: da by B`, whose bracketed category is `a` and not the empty string: the line is
not of the form `[]: <desc> by <name>`. -/
theorem getTalks_empty_type_prints_other_categories :
    formatResponse scenarioBody = some scenarioTalks ∧
    (getTalks (.resp scenarioBody) []).stdout =
      [lit "There are currently 2 talks scheduled\n", lit "[a]: da by B\n",
       lit "[z]: dz by A\n"] ∧
    ¬ ∃ desc name : GoString, lit "[a]: da by B\n" =
      lit "[" ++ ([] : GoString) ++ lit "]: " ++ desc ++ lit " by " ++ name ++ lit "\n" := by
  refine ⟨by decide, by decide, ?_⟩
  rintro ⟨desc, name, h⟩
  have e1 : lit "[a]: da by B\n" = [91, 97, 93, 58, 32, 100, 97, 32, 98, 121, 32, 66, 10] := by
    decide
  have e2 : lit "[" = [91] := by decide
  have e3 : lit "]: " = [93, 58, 32] := by decide
  rw [e1, e2, e3] at h
  simp at h

/-- Claim C7, amended: for every decoded list and every non-empty string `T` given as the
value of `--type`, every detail line `getTalks` prints is `[T]: <desc> by <name>` for a record
of the final list: its bracketed category is `T`. -/
theorem getTalks_lines_have_filter_type (body : Option JSON) (ts : TalkArr) (T : GoString)
    (hdec : formatResponse body = some ts) (hT : T ≠ []) :
    ∃ final : TalkArr, getTalks_select ts T = some final ∧
      (getTalks (.resp body) T).stdout =
        getTalks_summary final.length ::
          final.map (fun v =>
            lit "[" ++ T ++ lit "]: " ++ v.Desc ++ lit " by " ++ v.Name ++ lit "\n") := by
  refine ⟨_, getTalks_select_filter ts hT, ?_⟩
  rw [getTalks_of_select hdec (getTalks_select_filter ts hT)]
  simp only [List.cons.injEq, true_and]
  apply List.map_congr_left
  intro v hv
  have : v.Typ = T := by simpa using (List.mem_filter.mp hv).2
  simp [getTalks_line, this]

theorem getTalks_lines_have_filter_type_witness :
    formatResponse scenarioBody = some scenarioTalks ∧ lit "z" ≠ [] ∧
    ∃ final : TalkArr, getTalks_select scenarioTalks (lit "z") = some final ∧
      (getTalks (.resp scenarioBody) (lit "z")).stdout =
        getTalks_summary final.length ::
          final.map (fun v =>
            lit "[" ++ lit "z" ++ lit "]: " ++ v.Desc ++ lit " by " ++ v.Name ++ lit "\n") :=
  ⟨by decide, by decide,
    getTalks_lines_have_filter_type scenarioBody scenarioTalks (lit "z") (by decide) (by decide)⟩

/-- Claim C8: when the server returned an empty array, or a non-empty type filter matches no
record (`filterTalksByType` then returns its nil result), `getTalks` returns normally after
printing exactly `There are currently 0 talks scheduled` with a newline and no detail line. -/
theorem getTalks_empty_final_list (body : Option JSON) (ts : TalkArr) (T : GoString)
    (hdec : formatResponse body = some ts)
    (hempty : ts = [] ∨ (T ≠ [] ∧ ∀ t ∈ ts, t.Typ ≠ T)) :
    filterTalksByType ts T = [] ∧
    getTalks_select ts T = some [] ∧
    getTalks (.resp body) T =
      ⟨[lit "There are currently 0 talks scheduled\n"],
        [Request.get (lit "http://talks.cosi.clarkson.edu/api/talks/visible")], .returned⟩ := by
  have hfil : filterTalksByType ts T = [] := by
    rw [filterTalksByType_eq, List.filter_eq_nil_iff]
    rcases hempty with rfl | ⟨_, hno⟩
    · intro t ht; simp at ht
    · intro t ht; simpa using hno t ht
  have hsel : getTalks_select ts T = some [] := by
    rcases hempty with rfl | ⟨hT, hno⟩
    · by_cases hT : T = []
      · subst hT; rfl
      · rw [getTalks_select_filter _ hT]; rfl
    · rw [getTalks_select_filter _ hT]
      congr 1
      rw [List.filter_eq_nil_iff]
      intro t ht
      simpa using hno t ht
  refine ⟨hfil, hsel, ?_⟩
  rw [getTalks_of_select hdec hsel]
  rfl

theorem getTalks_empty_final_list_witness :
    formatResponse scenarioBody = some scenarioTalks ∧
    (scenarioTalks = [] ∨ (lit "missing" ≠ [] ∧ ∀ t ∈ scenarioTalks, t.Typ ≠ lit "missing")) ∧
    filterTalksByType scenarioTalks (lit "missing") = [] ∧
    getTalks_select scenarioTalks (lit "missing") = some [] ∧
    getTalks (.resp scenarioBody) (lit "missing") =
      ⟨[lit "There are currently 0 talks scheduled\n"],
        [Request.get (lit "http://talks.cosi.clarkson.edu/api/talks/visible")], .returned⟩ :=
  ⟨by decide, by decide,
    getTalks_empty_final_list scenarioBody scenarioTalks (lit "missing") (by decide) (by decide)⟩

/-- Claim C9, counterexample: the talk whose name is the byte `0xFF` is encoded with the name
U+FFFD, so decoding the array of its encoding yields a talk named `EF BF BD`, not the
original list. -/
theorem roundTrip_fails_on_invalid_utf8 :
    formatResponse (some (.array ([rawTalk].map json.Encode))) =
      some [⟨0, [0xEF, 0xBF, 0xBD], lit "demo", lit "hello", false⟩] ∧
    formatResponse (some (.array ([rawTalk].map json.Encode))) ≠ some [rawTalk] := by
  constructor
  · decide
  · decide

/-- Claim C9, amended: for every list of Talk records whose `id` is in the range of `int` and
whose `name`, `type` and `desc` are valid UTF-8, and for every list decoded from a server
response, encoding each record with the field names `id`, `name`, `type`, `desc`, `hidden`
and decoding the resulting array with the decoder of `formatResponse` yields the original
list, all five fields of every record preserved. -/
theorem roundTrip_on_valid_utf8 (body : Option JSON) (ts : TalkArr)
    (h : (∀ t ∈ ts, (-(2 ^ 63 : Int) ≤ t.ID ∧ t.ID < 2 ^ 63) ∧ ValidString t.Name = true ∧
        ValidString t.Typ = true ∧ ValidString t.Desc = true) ∨
      formatResponse body = some ts) :
    formatResponse (some (.array (ts.map json.Encode))) = some ts := by
  have hrt : ∀ t ∈ ts, RoundTrips t := by
    rcases h with h | h
    · exact h
    · exact formatResponse_roundTrips h
  exact decodeElems_Encode ts hrt

theorem roundTrip_on_valid_utf8_witness :
    ((∀ t ∈ scenarioTalks, (-(2 ^ 63 : Int) ≤ t.ID ∧ t.ID < 2 ^ 63) ∧
        ValidString t.Name = true ∧ ValidString t.Typ = true ∧ ValidString t.Desc = true) ∨
      formatResponse scenarioBody = some scenarioTalks) ∧
    formatResponse (some (.array (scenarioTalks.map json.Encode))) = some scenarioTalks :=
  ⟨Or.inr (by decide), roundTrip_on_valid_utf8 scenarioBody scenarioTalks (Or.inr (by decide))⟩

/-- Claim C10: for every decoded list listed with an empty type filter, the printed list is a
permutation of the server's list: it is reached by calls of `Swap` alone, `Swap` exchanges
two whole records and leaves every other position unchanged, so no record is dropped,
duplicated or altered and the summary count is the length of the server's response. -/
theorem getTalks_sort_permutes (body : Option JSON) (ts : TalkArr)
    (hdec : formatResponse body = some ts) :
    (∀ (a a2 : TalkArr) (i j : Nat), TalkArr.Swap a i j = some a2 →
      a2[i]? = a[j]? ∧ a2[j]? = a[i]? ∧ ∀ k, k ≠ i → k ≠ j → a2[k]? = a[k]?) ∧
    ∃ final : TalkArr, getTalks_select ts [] = some final ∧ SwapsIn 0 (TalkArr.Len ts) ts final ∧
      final.Perm ts ∧ final.length = ts.length ∧
      (getTalks (.resp body) []).stdout =
        getTalks_summary ts.length :: final.map getTalks_line := by
  constructor
  · intro a a2 i j hs
    have hij := Swap_some_iff hs
    obtain ⟨hi, hj, _⟩ := hij
    refine ⟨?_, ?_, ?_⟩
    · rw [Swap_getElem? hs i]
      by_cases e : i = j
      · rw [if_pos e, e]
      · rw [if_neg e, if_pos rfl]
    · rw [Swap_getElem? hs j, if_pos rfl]
    · intro k h1 h2
      rw [Swap_getElem? hs k, if_neg h2, if_neg h1]
  · obtain ⟨final, hsel, hsw, _⟩ := getTalks_select_sort ts
    refine ⟨final, hsel, hsw, hsw.perm, hsw.length_eq, ?_⟩
    rw [getTalks_of_select hdec hsel, hsw.length_eq]

theorem getTalks_sort_permutes_witness :
    formatResponse scenarioBody = some scenarioTalks ∧
    ((∀ (a a2 : TalkArr) (i j : Nat), TalkArr.Swap a i j = some a2 →
      a2[i]? = a[j]? ∧ a2[j]? = a[i]? ∧ ∀ k, k ≠ i → k ≠ j → a2[k]? = a[k]?) ∧
    ∃ final : TalkArr, getTalks_select scenarioTalks [] = some final ∧
      SwapsIn 0 (TalkArr.Len scenarioTalks) scenarioTalks final ∧
      final.Perm scenarioTalks ∧ final.length = scenarioTalks.length ∧
      (getTalks (.resp scenarioBody) []).stdout =
        getTalks_summary scenarioTalks.length :: final.map getTalks_line) :=
  ⟨by decide, getTalks_sort_permutes scenarioBody scenarioTalks (by decide)⟩
